import Mathlib

set_option maxHeartbeats 1000000

namespace WAVM

/-! Shallow embedding of the WAVM structural type interner (Include/IR/Types.h)
    and of the WAST printer (Source/WAST/Print.cpp).  Strings of the program are
    Lean strings, raw byte buffers are lists of naturals below 256, and the
    interner storage is an append-only list whose indices play the role of the
    canonical Impl pointers. -/

/-- ValueType enumeration from Include/IR/Types.h. -/
inductive ValueType
  | any
  | i32
  | i64
  | f32
  | f64
  | v128
  deriving DecidableEq

/-- Display name of a value type, asString(ValueType) in Include/IR/Types.h. -/
def ValueType.asString : ValueType → String
  | .any => "any"
  | .i32 => "i32"
  | .i64 => "i64"
  | .f32 => "f32"
  | .f64 => "f64"
  | .v128 => "v128"

/-- Index of the first structurally equal entry in an interner storage list. -/
def findIdx0 {α : Type} [DecidableEq α] (x : α) : List α → Option Nat
  | [] => none
  | y :: rest => if y = x then some 0 else (findIdx0 x rest).map (· + 1)

/-- Modelled from the spec: the bodies of TypeTuple::getUniqueImpl and
    FunctionType::getUniqueImpl are not part of the two given source files (only
    their declarations are, in Include/IR/Types.h); the spec describes a
    canonical append-only registry looked up by structural content.  The
    registry is a list, the identity of a registered value is its index, and
    registering looks up an existing structurally equal entry and otherwise
    appends a fresh one. -/
def intern {α : Type} [DecidableEq α] (s : List α) (x : α) : List α × Nat :=
  match findIdx0 x s with
  | some i => (s, i)
  | none => (s ++ [x], s.length)

/-- Storage shared by the tuple interner and the function type interner.  A
    function type entry is the pair of the results tuple identity and the
    params tuple identity, mirroring FunctionType::Impl. -/
structure TypeStores where
  tuples : List (List ValueType)
  funcs : List (Nat × Nat)
  deriving DecidableEq

/-- Registration of a tuple of value types (the TypeTuple constructors). -/
def registerTypeTuple (ts : List (List ValueType)) (elems : List ValueType) :
    List (List ValueType) × Nat :=
  intern ts elems

/-- Registration of a function type (the FunctionType constructor): both tuples
    are canonicalized first and the pair of their identities is interned. -/
def registerFunctionType (st : TypeStores) (results params : List ValueType) :
    TypeStores × Nat :=
  let tr := intern st.tuples results
  let tp := intern tr.1 params
  let tf := intern st.funcs (tr.2, tp.2)
  (⟨tp.1, tf.1⟩, tf.2)

/-- Value-semantic handle backed by the interner: the impl field abstracts the
    canonical Impl pointer of FunctionType in Include/IR/Types.h, and equality
    of handles is equality of impl values, mirroring operator==. -/
structure FunctionType where
  impl : Nat
  deriving DecidableEq

/-- FunctionType::getEncoding: reinterpret the impl pointer as an integer. -/
def FunctionType.getEncoding (f : FunctionType) : Nat := f.impl

/-- FunctionType(Encoding): reinterpret the integer back into an impl pointer. -/
def functionTypeOfEncoding (e : Nat) : FunctionType := ⟨e⟩

/-- nibbleToHexChar from Print.cpp, over byte values. -/
def nibbleToHexChar (v : Nat) : Nat :=
  if v < 10 then 0x30 + v else 0x61 + v - 10

/-- Body of the loop of escapeString in Print.cpp, escaping one byte.  Bytes
    are naturals; for a byte below 256 the signed char comparisons c < 0x20 and
    c > 0x7e of the source classify it exactly as the unsigned test below. -/
def escapeByte (c : Nat) : List Nat :=
  if c = 0x5c then [0x5c, 0x5c]
  else if c = 0x22 then [0x5c, 0x22]
  else if c = 0x0a then [0x5c, 0x6e]
  else if c < 0x20 ∨ 0x7e < c then
    [0x5c, nibbleToHexChar ((c &&& 0xf0) >>> 4), nibbleToHexChar (c &&& 0x0f)]
  else [c]

/-- escapeString from Print.cpp: the left-to-right loop over the input bytes. -/
def escapeString : List Nat → List Nat
  | [] => []
  | c :: rest => escapeByte c ++ escapeString rest

/-- INDENT_STRING of Print.cpp, the two byte indent sentinel. -/
def INDENT_BYTES : List Nat := [0xe0, 0x01]

/-- DEDENT_STRING of Print.cpp, the two byte dedent sentinel. -/
def DEDENT_BYTES : List Nat := [0xe0, 0x02]

/-- expandIndentation from Print.cpp: one left-to-right scan with a depth
    counter.  The source pads the input with one NUL byte so that reading
    next[1] at the final byte is safe; matching on the head and on head? of the
    tail reproduces that exactly.  The errorUnless(indentDepth > 0) fatal error
    is the none result. -/
def expandIndentation (w : Nat) : List Nat → Nat → Option (List Nat)
  | [], _ => some []
  | c :: rest, depth =>
    if c = 0xe0 ∧ rest.head? = some 0x01 then
      expandIndentation w rest.tail (depth + 1)
    else if c = 0xe0 ∧ rest.head? = some 0x02 then
      if depth = 0 then none
      else expandIndentation w rest.tail (depth - 1)
    else if c = 0x0a then
      (expandIndentation w rest depth).map
        (fun out => 0x0a :: (List.replicate (depth * w) 0x20 ++ out))
    else
      (expandIndentation w rest depth).map (fun out => c :: out)
termination_by l _ => l.length
decreasing_by
  · simp only [List.length_cons, List.length_tail]; omega
  · simp only [List.length_cons, List.length_tail]; omega
  · simp only [List.length_cons]; omega
  · simp only [List.length_cons]; omega

/-- NameScope of Print.cpp: a sigil, the set of taken names and the per base
    name duplicate counters.  The HashSet and HashMap are lists. -/
structure NameScope where
  sigil : Char
  nameSet : List String
  counters : List (String × Nat)
  deriving DecidableEq

/-- Lookup in the duplicate counter map, defaulting to 0 (getOrAdd default). -/
def lookupCounter (m : List (String × Nat)) (k : String) : Nat :=
  match m.find? (fun p => decide (p.1 = k)) with
  | some p => p.2
  | none => 0

/-- Probe loop of NameScope::map: try base + counter, incrementing the counter,
    until a name that is not taken is found.  The do-while of the source is
    unbounded; one more attempt than there are taken names always suffices, so
    the loop is run with that much gas.  The result is the found name and the
    final counter value. -/
def probeAux (taken : List String) (base : String) : Nat → Nat → String × Nat
  | 0, ctr => (base ++ Nat.repr ctr, ctr + 1)
  | gas + 1, ctr =>
    let cand := base ++ Nat.repr ctr
    if cand ∈ taken then probeAux taken base gas (ctr + 1) else (cand, ctr + 1)

/-- NameScope::map from Print.cpp.  The short-circuit !name.size() ||
    !nameSet.add(name) means: an empty candidate, or a nonempty candidate that
    is already taken, goes through the probe loop; a nonempty untaken candidate
    is recorded verbatim.  The sigil is prepended to the result in both cases. -/
def NameScope.map (scope : NameScope) (name : String) : NameScope × String :=
  let baseName := if name.length = 0 then name else name ++ "_"
  if name.length = 0 ∨ name ∈ scope.nameSet then
    let pr := probeAux scope.nameSet baseName (scope.nameSet.length + 1)
      (lookupCounter scope.counters name)
    (⟨scope.sigil, pr.1 :: scope.nameSet, (name, pr.2) :: scope.counters⟩,
      String.singleton scope.sigil ++ pr.1)
  else
    (⟨scope.sigil, name :: scope.nameSet, scope.counters⟩,
      String.singleton scope.sigil ++ name)

/-- Feeding a sequence of candidate names through one NameScope instance. -/
def mapNames (scope : NameScope) : List String → NameScope × List String
  | [] => (scope, [])
  | n :: rest =>
    let r1 := scope.map n
    let r2 := mapNames r1.1 rest
    (r2.1, r1.2 :: r2.2)

/-- Decimal digit list of a natural number, most significant first; reference
    recursion used to reason about Nat.repr (std::to_string of the source). -/
def decChars (n : Nat) : List Char :=
  if h : n / 10 = 0 then [Nat.digitChar (n % 10)]
  else decChars (n / 10) ++ [Nat.digitChar (n % 10)]
decreasing_by
  exact Nat.div_lt_self (Nat.pos_of_ne_zero (fun h0 => h (by simp [h0]))) (by norm_num)

/-- Numeric value of a decimal digit character. -/
def charVal (c : Char) : Nat := c.toNat - 48

/-- Numeric value of a decimal digit character list, most significant first. -/
def chVal (l : List Char) : Nat := l.foldl (fun a c => a * 10 + charVal c) 0

/-- Output atoms of the printer.  The source appends plain text and the two
    reserved sentinel byte pairs into one string; the token list keeps the
    three kinds of append distinct. -/
inductive Tok
  | text (s : String)
  | ind
  | ded
  deriving DecidableEq

/-- ControlContext::Type from Print.cpp. -/
inductive ControlType
  | function
  | block
  | ifThen
  | ifElse
  | loop
  | try_
  | catch_
  deriving DecidableEq

/-- ControlContext from Print.cpp: one frame of the control stack. -/
structure ControlContext where
  type : ControlType
  labelId : String
  deriving DecidableEq

/-- FunctionPrintContext::getBranchTargetId: index the control stack (a vector
    whose back is the top) at size - depth - 1; a function frame renders the
    numeric depth, any other frame renders its label. -/
def getBranchTargetId (stack : List ControlContext) (depth : Nat)
    (h : depth < stack.length) : String :=
  let controlContext := stack.get ⟨stack.length - depth - 1, by omega⟩
  if controlContext.type = ControlType.function then Nat.repr depth
  else controlContext.labelId

/-- Resolved signature of a construct or function, the (results, params) view
    of a FunctionType used by print(std::string&, FunctionType). -/
structure FTSig where
  results : List ValueType
  params : List ValueType
  deriving DecidableEq

/-- IndexedBlockType from Include/IR/Types.h. -/
inductive IndexedBlockTypeM
  | noParametersOrResult
  | oneResult (t : ValueType)
  | functionType (index : Nat)
  deriving DecidableEq

/-- Modelled from the spec: resolveBlockType is declared outside the two given
    source files; the spec says a construct signature is resolved from an
    inline result type or a registered FunctionType by index.  An out of range
    index is none (fatal). -/
def resolveBlockType (types : List FTSig) : IndexedBlockTypeM → Option FTSig
  | .noParametersOrResult => some ⟨[], []⟩
  | .oneResult t => some ⟨[t], []⟩
  | .functionType i => types.get? i

/-- ScopedTagPrinter from Print.cpp: open paren and tag with an indent on
    construction, dedent and close paren on destruction. -/
def scopedTag (tag : String) (body : List Tok) : List Tok :=
  [Tok.text "(", Tok.text tag, Tok.ind] ++ body ++ [Tok.ded, Tok.text ")"]

/-- Element loop of print(std::string&, FunctionType): a space then each type. -/
def printValueTypesBody (l : List ValueType) : List Tok :=
  (l.map (fun t => [Tok.text " ", Tok.text t.asString])).flatten

/-- print(std::string&, FunctionType) from Print.cpp: param tag when there are
    parameters, result tag when there are results. -/
def printFunctionTypeToks (sig : FTSig) : List Tok :=
  (if sig.params.length ≠ 0 then scopedTag "param" (printValueTypesBody sig.params)
   else [])
    ++ (if sig.results.length ≠ 0 then
          scopedTag "result" (printValueTypesBody sig.results)
        else [])

/-- Read-only surroundings of a FunctionPrintContext: the display names held by
    the module context and per function, the registered types and the branch
    tables of the function definition. -/
structure FnContext where
  typeNames : List String
  functionNames : List String
  globalNames : List String
  exceptionTypeNames : List String
  localNames : List String
  labelNames : List String
  types : List FTSig
  branchTables : List (List Nat)
  deriving DecidableEq

/-- Mutable part of a FunctionPrintContext: the control stack, the label name
    scope with its running label index, and the output. -/
structure FnState where
  stack : List ControlContext
  labelScope : NameScope
  labelIndex : Nat
  out : List Tok
  deriving DecidableEq

/-- Append one text atom to the output. -/
def FnState.say (st : FnState) (s : String) : FnState :=
  { st with out := st.out ++ [Tok.text s] }

/-- FunctionPrintContext::pushControlStack: push a frame, open an indent. -/
def pushControlStack (st : FnState) (t : ControlType) (labelId : String) :
    FnState :=
  { st with stack := st.stack ++ [⟨t, labelId⟩], out := st.out ++ [Tok.ind] }

/-- FunctionPrintContext::printControlLabel: take the name-section label at the
    current label index when present, else the base mnemonic; deduplicate it
    through the per function label NameScope; print a space and the mapped
    label; bump the label index; return the mapped label. -/
def printControlLabel (ctx : FnContext) (st : FnState) (labelIdBase : String) :
    FnState × String :=
  let cand := if st.labelIndex < ctx.labelNames.length
    then ctx.labelNames.getD st.labelIndex "" else labelIdBase
  let m := st.labelScope.map cand
  ({ st with labelScope := m.1, labelIndex := st.labelIndex + 1,
             out := st.out ++ [Tok.text " ", Tok.text m.2] }, m.2)

/-- FunctionPrintContext::printControlSignature: resolve the block type and
    print it. -/
def printControlSignature (ctx : FnContext) (st : FnState)
    (imm : IndexedBlockTypeM) : Option FnState :=
  match resolveBlockType ctx.types imm with
  | none => none
  | some sig => some { st with out := st.out ++ printFunctionTypeToks sig }

/-- Operators of a function body, with the immediates the printer consumes.
    Operators other than the control flow and branch ones print a mnemonic and
    operand text and leave the control stack alone; they are the plain case. -/
inductive WOp
  | block (imm : IndexedBlockTypeM)
  | loop (imm : IndexedBlockTypeM)
  | if_ (imm : IndexedBlockTypeM)
  | else_
  | end_
  | return_
  | br (targetDepth : Nat)
  | br_if (targetDepth : Nat)
  | br_table (branchTableIndex : Nat) (defaultTargetDepth : Nat)
  | try_ (imm : IndexedBlockTypeM)
  | catch_ (exceptionTypeIndex : Nat)
  | catch_all
  | unknown
  | plain (text : String)
  deriving DecidableEq

/-- Target list loop of FunctionPrintContext::br_table: sixteen targets per
    line, each resolved through getBranchTargetId; an out of range depth is
    fatal (none). -/
def brTableTargets (stack : List ControlContext) :
    List Nat → Nat → Option (List Tok)
  | [], _ => some []
  | d :: rest, targetIndex =>
    if h : d < stack.length then
      let sep := if targetIndex % 16 = 0 then Tok.text "\n" else Tok.text " "
      match brTableTargets stack rest (targetIndex + 1) with
      | none => none
      | some toks => some (sep :: Tok.text (getBranchTargetId stack d h) :: toks)
    else none

/-- One dispatch of OperatorDecoderStream::decodeOp into the handlers of
    FunctionPrintContext.  The none result is a fatal condition: the
    Errors::unreachable of the unknown handler, a wrong stack access (back on
    an empty vector), an unresolvable block type, or an out of range branch
    depth or branch table index (out of range vector indexing). -/
def decodeOp (ctx : FnContext) (op : WOp) (st : FnState) : Option FnState :=
  match op with
  | .block imm =>
    let r := printControlLabel ctx (st.say "\nblock") "block"
    match printControlSignature ctx r.1 imm with
    | none => none
    | some st1 => some (pushControlStack st1 ControlType.block r.2)
  | .loop imm =>
    let r := printControlLabel ctx (st.say "\nloop") "loop"
    match printControlSignature ctx r.1 imm with
    | none => none
    | some st1 => some (pushControlStack st1 ControlType.loop r.2)
  | .if_ imm =>
    let r := printControlLabel ctx (st.say "\nif") "if"
    match printControlSignature ctx r.1 imm with
    | none => none
    | some st1 => some (pushControlStack st1 ControlType.ifThen r.2)
  | .else_ =>
    match st.stack.getLast? with
    | none => none
    | some back =>
      some { st with
        stack := st.stack.dropLast ++ [⟨ControlType.ifElse, back.labelId⟩],
        out := st.out ++ [Tok.ded, Tok.text "\nelse", Tok.ind] }
  | .end_ =>
    match st.stack.getLast? with
    | none => none
    | some back =>
      let st1 := { st with out := st.out ++ [Tok.ded] }
      let st2 := if back.type ≠ ControlType.function
        then st1.say ("\nend ;; " ++ back.labelId) else st1
      some { st2 with stack := st2.stack.dropLast }
  | .return_ => some (st.say "\nreturn")
  | .br d =>
    if h : d < st.stack.length then
      some (st.say ("\nbr " ++ getBranchTargetId st.stack d h))
    else none
  | .br_if d =>
    if h : d < st.stack.length then
      some (st.say ("\nbr_if " ++ getBranchTargetId st.stack d h))
    else none
  | .br_table idx dflt =>
    if idx < ctx.branchTables.length then
      match brTableTargets st.stack (ctx.branchTables.getD idx []) 0 with
      | none => none
      | some toks =>
        if h : dflt < st.stack.length then
          some { st with out := st.out ++ [Tok.text "\nbr_table", Tok.ind]
            ++ toks
            ++ [Tok.text "\n", Tok.text (getBranchTargetId st.stack dflt h),
                Tok.text " ;; default", Tok.ded] }
        else none
    else none
  | .try_ imm =>
    let st1 := pushControlStack (st.say "\ntry") ControlType.try_ "try"
    printControlSignature ctx st1 imm
  | .catch_ exceptionTypeIndex =>
    match st.stack.getLast? with
    | none => none
    | some back =>
      some { st with
        stack := st.stack.dropLast ++ [⟨ControlType.catch_, back.labelId⟩],
        out := st.out ++ [Tok.ded, Tok.text "\ncatch ",
          Tok.text (ctx.functionNames.getD exceptionTypeIndex ""), Tok.ind] }
  | .catch_all =>
    match st.stack.getLast? with
    | none => none
    | some back =>
      some { st with
        stack := st.stack.dropLast ++ [⟨ControlType.catch_, back.labelId⟩],
        out := st.out ++ [Tok.ded, Tok.text "\ncatch_all", Tok.ind] }
  | .unknown => none
  | .plain text => some (st.say ("\n" ++ text))

/-- Decode loop of FunctionPrintContext::printFunctionBody: while the operator
    stream and the control stack are both nonempty, decode one operator.  The
    result carries the unconsumed operators and the final state; none is a
    fatal condition raised by a handler. -/
def runBody (ctx : FnContext) : List WOp → FnState → Option (List WOp × FnState)
  | [], st => some ([], st)
  | op :: rest, st =>
    if st.stack.length = 0 then some (op :: rest, st)
    else
      match decodeOp ctx op st with
      | none => none
      | some st1 => runBody ctx rest st1

/-- State of FunctionPrintContext::printFunctionBody before the decode loop:
    the synthetic function frame is pushed (with its indent) and one dedent is
    emitted; the label scope uses the dollar sigil. -/
def initialFnState : FnState :=
  { stack := [⟨ControlType.function, ""⟩],
    labelScope := ⟨'$', [], []⟩, labelIndex := 0,
    out := [Tok.ind, Tok.ded] }

/-- FunctionPrintContext::printFunctionBody: push the synthetic function frame,
    run the decode loop, then emit a final indent and newline. -/
def printFunctionBody (ctx : FnContext) (ops : List WOp) :
    Option (List WOp × FnState) :=
  match runBody ctx ops initialFnState with
  | none => none
  | some r => some (r.1, { r.2 with out := r.2.out ++ [Tok.ind, Tok.text "\n"] })

/-- Display names and imports the linking section decoder consults. -/
structure LinkCtx where
  functionNames : List String
  globalNames : List String
  functionImports : List (String × String)
  globalImports : List (String × String)
  userSectionNames : List String
  deriving DecidableEq

/-- Comment string under construction and the indentDepth counter of
    ModulePrintContext::printLinkingSection. -/
structure LinkSt where
  toks : List Tok
  depth : Nat
  deriving DecidableEq

/-- Append one text atom to the comment. -/
def LinkSt.say (st : LinkSt) (s : String) : LinkSt :=
  { st with toks := st.toks ++ [Tok.text s] }

/-- Append an indent sentinel and bump indentDepth, the paired
    += INDENT_STRING; ++indentDepth of the source. -/
def LinkSt.pushInd (st : LinkSt) : LinkSt :=
  ⟨st.toks ++ [Tok.ind], st.depth + 1⟩

/-- Append a dedent sentinel and drop indentDepth, the paired
    += DEDENT_STRING; --indentDepth of the source. -/
def LinkSt.popInd (st : LinkSt) : LinkSt :=
  ⟨st.toks ++ [Tok.ded], st.depth - 1⟩

/-- Modelled from the spec: serializeNativeValue over U8 (Inline/Serialization.h
    is not among the given source files) reads one byte or fails at the end of
    the stream. -/
def readByte : List Nat → Option (Nat × List Nat)
  | [] => none
  | b :: rest => some (b, rest)

/-- Modelled from the spec: core of the LEB128 variable length unsigned integer
    reader behind serializeVarUInt32, at most five bytes. -/
def readVarUIntCore : Nat → List Nat → Option (Nat × List Nat)
  | 0, _ => none
  | _ + 1, [] => none
  | fuel + 1, b :: rest =>
    if b < 0x80 then some (b, rest)
    else
      match readVarUIntCore fuel rest with
      | none => none
      | some r => some ((b - 0x80) + r.1 * 0x80, r.2)

/-- Modelled from the spec: serializeVarUInt32, failing on a truncated or
    overlong encoding. -/
def readVarUInt32 (s : List Nat) : Option (Nat × List Nat) :=
  readVarUIntCore 5 s

/-- Modelled from the spec: MemoryInputStream::advance, failing when fewer
    bytes remain than requested; yields the consumed bytes and the rest. -/
def readBytes (n : Nat) (s : List Nat) : Option (List Nat × List Nat) :=
  if n ≤ s.length then some (s.take n, s.drop n) else none

/-- Bytes viewed as the characters of a string. -/
def bytesToString (bs : List Nat) : String := (bs.map Char.ofNat).asString

/-- Modelled from the spec: serialize over std::string, a length prefixed byte
    string. -/
def readString (s : List Nat) : Option (String × List Nat) :=
  match readVarUInt32 s with
  | none => none
  | some r =>
    match readBytes r.1 r.2 with
    | none => none
    | some rb => some (bytesToString rb.1, rb.2)

/-- Entry loop of the segmentInfo case: name, alignment (rendered as a power of
    two), flag word per entry.  The none outcome is a serialization throw, the
    partial comment is kept. -/
def segEntries : Nat → List Nat → LinkSt → LinkSt × Option (List Nat)
  | 0, s, st => (st, some s)
  | n + 1, s, st =>
    match readString s with
    | none => (st, none)
    | some rn =>
      match readVarUInt32 rn.2 with
      | none => (st, none)
      | some ra =>
        match readVarUInt32 ra.2 with
        | none => (st, none)
        | some rf =>
          segEntries n rf.2
            ((((st.say "\n").say rn.1).say
                (" alignment=" ++ Nat.repr (1 <<< ra.1))).say
              (" flags=" ++ Nat.repr rf.1))

/-- segmentInfo case of printLinkingSection. -/
def decodeSegmentInfo (s : List Nat) (st : LinkSt) : LinkSt × Bool :=
  let st := (st.say "\nSegments:").pushInd
  match readVarUInt32 s with
  | none => (st, false)
  | some rn =>
    match segEntries rn.1 rn.2 st with
    | (st1, none) => (st1, false)
    | (st1, some _) => (st1.popInd, true)

/-- Entry loop of the initFuncs case: function indices, an out of range index
    rendering an explicit invalid index marker without failing. -/
def initFuncEntries (ctx : LinkCtx) :
    Nat → List Nat → LinkSt → LinkSt × Option (List Nat)
  | 0, s, st => (st, some s)
  | n + 1, s, st =>
    match readVarUInt32 s with
    | none => (st, none)
    | some rf =>
      let st := st.say "\n"
      let st :=
        if rf.1 < ctx.functionNames.length then
          st.say (" " ++ ctx.functionNames.getD rf.1 "")
        else
          st.say (" <invalid function index " ++ Nat.repr rf.1 ++ ">")
      initFuncEntries ctx n rf.2 st

/-- initFuncs case of printLinkingSection. -/
def decodeInitFuncs (ctx : LinkCtx) (s : List Nat) (st : LinkSt) :
    LinkSt × Bool :=
  let st := (st.say "\nInit funcs:").pushInd
  match readVarUInt32 s with
  | none => (st, false)
  | some rn =>
    match initFuncEntries ctx rn.1 rn.2 st with
    | (st1, none) => (st1, false)
    | (st1, some _) => (st1.popInd, true)

/-- Symbol loop of one comdat: kind and index per reference; an out of range
    function or global reference, or an unknown kind, appends its message and
    throws (none). -/
def comdatSyms (ctx : LinkCtx) :
    Nat → List Nat → LinkSt → LinkSt × Option (List Nat)
  | 0, s, st => (st, some s)
  | n + 1, s, st =>
    match readVarUInt32 s with
    | none => (st, none)
    | some rk =>
      match readVarUInt32 rk.2 with
      | none => (st, none)
      | some ri =>
        let st := st.say "\nSymbol: "
        match rk.1 with
        | 0 =>
          comdatSyms ctx n ri.2 ((st.say "data segment ").say (Nat.repr ri.1))
        | 1 =>
          let st := st.say "function "
          if ri.1 < ctx.functionNames.length then
            comdatSyms ctx n ri.2 (st.say (ctx.functionNames.getD ri.1 ""))
          else
            (st.say ("Invalid COMDAT function index " ++ Nat.repr ri.1), none)
        | 2 =>
          let st := st.say "global "
          if ri.1 < ctx.globalNames.length then
            comdatSyms ctx n ri.2 (st.say (ctx.globalNames.getD ri.1 ""))
          else
            (st.say ("Invalid COMDAT global index " ++ Nat.repr ri.1), none)
        | k + 3 =>
          (st.say ("\nUnknown comdat kind: " ++ Nat.repr (k + 3)), none)

/-- Entry loop of the comdatInfo case: named groups with an optional flag word
    and a symbol list. -/
def comdatEntries (ctx : LinkCtx) :
    Nat → List Nat → LinkSt → LinkSt × Option (List Nat)
  | 0, s, st => (st, some s)
  | n + 1, s, st =>
    match readString s with
    | none => (st, none)
    | some rn =>
      match readVarUInt32 rn.2 with
      | none => (st, none)
      | some rf =>
        let st := (st.say "\n").say rn.1
        let st :=
          if rf.1 ≠ 0 then st.say (" OtherFlags=" ++ Nat.repr rf.1) else st
        let st := st.pushInd
        match readVarUInt32 rf.2 with
        | none => (st, none)
        | some rns =>
          match comdatSyms ctx rns.1 rns.2 st with
          | (st1, none) => (st1, none)
          | (st1, some rest) => comdatEntries ctx n rest st1.popInd

/-- comdatInfo case of printLinkingSection. -/
def decodeComdatInfo (ctx : LinkCtx) (s : List Nat) (st : LinkSt) :
    LinkSt × Bool :=
  let st := (st.say "\nComdats:").pushInd
  match readVarUInt32 s with
  | none => (st, false)
  | some rn =>
    match comdatEntries ctx rn.1 rn.2 st with
    | (st1, none) => (st1, false)
    | (st1, some _) => (st1.popInd, true)

/-- Flag bit rendering of a symbol table entry: named flags for bits 1, 2, 4
    and 16, remaining bits numerically. -/
def sayFlags (flags : Nat) (st : LinkSt) : LinkSt :=
  let st := if flags &&& 1 ≠ 0 then st.say " *WEAK*" else st
  let st := if flags &&& 2 ≠ 0 then st.say " *LOCAL*" else st
  let st := if flags &&& 4 ≠ 0 then st.say " *HIDDEN*" else st
  let st := if flags &&& 16 ≠ 0 then st.say " *UNDEFINED*" else st
  let residual := flags - (flags &&& 23)
  if residual ≠ 0 then st.say (" OtherFlags=" ++ Nat.repr residual) else st

/-- Outcome of the symbol table entry loop: continue with the rest of the
    substream, a thrown FatalSerializationException (caught at the section
    boundary), or a crash: the source prints names.functions[index].name and
    names.globals[index] with an unchecked symbol index, and an out of range
    index there is an out of bounds vector access, undefined behavior that the
    catch handler never sees. -/
inductive SymOut
  | ok (rest : List Nat)
  | thrown
  | crash
  deriving DecidableEq

/-- Outcome of the whole linking section decode: normal completion, a caught
    throw, or the undefined behavior crash escaping the section. -/
inductive LinkResult
  | ok
  | thrown
  | crash
  deriving DecidableEq

/-- Entry loop of the symbolTable case.  Function and global symbols carry a
    name derived from an import or an explicit name plus a display name looked
    up without a bounds check (an out of range index is the crash outcome);
    data symbols carry name, segment index, offset and size; section symbols
    carry an index resolved to a section name or an invalid marker; an unknown
    kind appends its message and throws. -/
def symTabEntries (ctx : LinkCtx) :
    Nat → List Nat → LinkSt → LinkSt × SymOut
  | 0, s, st => (st, SymOut.ok s)
  | n + 1, s, st =>
    match readByte s with
    | none => (st, SymOut.thrown)
    | some rk =>
      match readVarUInt32 rk.2 with
      | none => (st, SymOut.thrown)
      | some rf =>
        match rk.1 with
        | 0 =>
          match readVarUInt32 rf.2 with
          | none => (st, SymOut.thrown)
          | some ri =>
            match
              (if ri.1 < ctx.functionImports.length then
                 some ((ctx.functionImports.getD ri.1 ("", "")).1 ++ "." ++
                   (ctx.functionImports.getD ri.1 ("", "")).2, ri.2)
               else readString ri.2) with
            | none => (st, SymOut.thrown)
            | some rs =>
              let st := ((st.say "\n").say "function ").say rs.1
              if ri.1 < ctx.functionNames.length then
                symTabEntries ctx n rs.2 (sayFlags rf.1
                  (st.say (" " ++ ctx.functionNames.getD ri.1 "")))
              else (st, SymOut.crash)
        | 2 =>
          match readVarUInt32 rf.2 with
          | none => (st, SymOut.thrown)
          | some ri =>
            match
              (if ri.1 < ctx.globalImports.length then
                 some ((ctx.globalImports.getD ri.1 ("", "")).1 ++ "." ++
                   (ctx.globalImports.getD ri.1 ("", "")).2, ri.2)
               else readString ri.2) with
            | none => (st, SymOut.thrown)
            | some rs =>
              let st := ((st.say "\n").say "global ").say rs.1
              if ri.1 < ctx.globalNames.length then
                symTabEntries ctx n rs.2 (sayFlags rf.1
                  (st.say (" " ++ ctx.globalNames.getD ri.1 "")))
              else (st, SymOut.crash)
        | 1 =>
          match readString rf.2 with
          | none => (st, SymOut.thrown)
          | some rs =>
            match readVarUInt32 rs.2 with
            | none => (st, SymOut.thrown)
            | some ri =>
              match readVarUInt32 ri.2 with
              | none => (st, SymOut.thrown)
              | some ro =>
                match readVarUInt32 ro.2 with
                | none => (st, SymOut.thrown)
                | some rb =>
                  let st := ((st.say "\n").say "data ").say rs.1
                  let st := st.say (" index=" ++ Nat.repr ri.1)
                  let st := st.say (" offset=" ++ Nat.repr ro.1)
                  let st := st.say (" size=" ++ Nat.repr rb.1)
                  symTabEntries ctx n rb.2 (sayFlags rf.1 st)
        | 3 =>
          match readVarUInt32 rf.2 with
          | none => (st, SymOut.thrown)
          | some ri =>
            let symbolName :=
              if ri.1 < ctx.userSectionNames.length then
                ctx.userSectionNames.getD ri.1 ""
              else "*invalid index*"
            let st := ((st.say "\n").say "section ").say symbolName
            let st := st.say (" index=" ++ Nat.repr ri.1)
            symTabEntries ctx n ri.2 (sayFlags rf.1 st)
        | k + 4 =>
          (st.say ("\nUnknown symbol kind: " ++ Nat.repr (k + 4)), SymOut.thrown)

/-- symbolTable case of printLinkingSection.  A crash in the entry loop is not
    a FatalSerializationException and propagates past the comment assembly. -/
def decodeSymbolTable (ctx : LinkCtx) (s : List Nat) (st : LinkSt) :
    LinkSt × LinkResult :=
  let st := (st.say "\nSymbols:").pushInd
  match readVarUInt32 s with
  | none => (st, LinkResult.thrown)
  | some rn =>
    match symTabEntries ctx rn.1 rn.2 st with
    | (st1, SymOut.ok _) => (st1.popInd, LinkResult.ok)
    | (st1, SymOut.thrown) => (st1, LinkResult.thrown)
    | (st1, SymOut.crash) => (st1, LinkResult.crash)

/-- Dispatch over the LinkingSubsectionType tag; an unknown tag appends its
    message and throws. -/
def decodeSubsection (ctx : LinkCtx) (tag : Nat) (sub : List Nat)
    (st : LinkSt) : LinkSt × LinkResult :=
  match tag with
  | 5 =>
    match decodeSegmentInfo sub st with
    | (st1, true) => (st1, LinkResult.ok)
    | (st1, false) => (st1, LinkResult.thrown)
  | 6 =>
    match decodeInitFuncs ctx sub st with
    | (st1, true) => (st1, LinkResult.ok)
    | (st1, false) => (st1, LinkResult.thrown)
  | 7 =>
    match decodeComdatInfo ctx sub st with
    | (st1, true) => (st1, LinkResult.ok)
    | (st1, false) => (st1, LinkResult.thrown)
  | 8 => decodeSymbolTable ctx sub st
  | t =>
    (st.say ("\nUnknown WASM linking subsection type: " ++ Nat.repr t),
      LinkResult.thrown)

/-- Subsection loop of printLinkingSection: while bytes remain, read a one byte
    tag and a length prefixed payload, isolate the payload in a substream and
    dispatch.  Each iteration consumes at least one byte, so gas equal to the
    stream length plus one never runs out.  A throw or a crash ends the loop
    with that outcome. -/
def linkLoop (ctx : LinkCtx) : Nat → List Nat → LinkSt → LinkSt × LinkResult
  | _, [], st => (st, LinkResult.ok)
  | 0, _ :: _, st => (st, LinkResult.ok)
  | fuel + 1, b :: s, st =>
    match readVarUInt32 s with
    | none => (st, LinkResult.thrown)
    | some rl =>
      match readBytes rl.1 rl.2 with
      | none => (st, LinkResult.thrown)
      | some rb =>
        match decodeSubsection ctx b rb.1 st with
        | (st1, LinkResult.ok) => linkLoop ctx fuel rb.2 st1
        | (st1, LinkResult.thrown) => (st1, LinkResult.thrown)
        | (st1, LinkResult.crash) => (st1, LinkResult.crash)

/-- Body of the try block of printLinkingSection: the comment header with its
    indent, the version integer, then the subsection loop.  The result is
    thrown exactly when a FatalSerializationException was thrown, and crash
    exactly when the undefined behavior indexing was reached. -/
def linkingDecode (ctx : LinkCtx) (data : List Nat) : LinkSt × LinkResult :=
  let st0 : LinkSt := ⟨[Tok.text "\n(; linking section:", Tok.ind], 1⟩
  match readVarUInt32 data with
  | none => (st0, LinkResult.thrown)
  | some rv =>
    linkLoop ctx (rv.2.length + 1) rv.2 (st0.say ("\nVersion: " ++ Nat.repr rv.1))

/-- Force close of the indent levels opened within the section, the
    while(indentDepth > 1) loop of the catch handler. -/
def closeAll (st : LinkSt) : LinkSt :=
  ⟨st.toks ++ List.replicate (st.depth - 1) Tok.ded, 1⟩

/-- ModulePrintContext::printLinkingSection: run the decode under the catch
    boundary; on a throw append the failure marker and force close the indent
    levels, then append the final dedent and the closing comment.  The crash
    outcome is undefined behavior the catch does not see: the section render
    does not complete, which the none result stands for. -/
def printLinkingSection (ctx : LinkCtx) (data : List Nat) : Option (List Tok) :=
  match linkingDecode ctx data with
  | (st, LinkResult.ok) => some (st.toks ++ [Tok.ded, Tok.text "\n;)"])
  | (st, LinkResult.thrown) =>
    some ((closeAll (st.say "\nFatal serialization exception!")).toks ++
      [Tok.ded, Tok.text "\n;)"])
  | (_, LinkResult.crash) => none

/-- Indentation weight of one output atom. -/
def Tok.delta : Tok → Int
  | .ind => 1
  | .ded => -1
  | .text _ => 0

/-- Net indentation of an output atom list. -/
def netDepth (l : List Tok) : Int := (l.map Tok.delta).sum

/-- Bytes nibbleToHexChar can produce: the decimal digits and the lowercase
    hex letters. -/
def isHexDigitByte (b : Nat) : Bool :=
  (0x30 ≤ b && b ≤ 0x39) || (0x61 ≤ b && b ≤ 0x66)

/-- Invariant tying the emitted comment of printLinkingSection to its
    indentDepth counter: the net indentation of the emitted atoms equals the
    counter, no prefix dips below zero, and the counter stays at least one. -/
def LinkInv (st : LinkSt) : Prop :=
  netDepth st.toks = (st.depth : Int) ∧
    (∀ n, 0 ≤ netDepth (st.toks.take n)) ∧ 1 ≤ st.depth

/-! Helper lemmas about the interner storage. -/

theorem findIdx0_getElem? {α : Type} [DecidableEq α] {x : α} :
    ∀ {s : List α} {i : Nat}, findIdx0 x s = some i → s[i]? = some x := by
  intro s
  induction s with
  | nil => intro i h; simp [findIdx0] at h
  | cons y rest ih =>
    intro i h
    by_cases hy : y = x
    · simp [findIdx0, hy] at h
      subst h
      simp [hy]
    · simp [findIdx0, hy] at h
      obtain ⟨j, hj, rfl⟩ := h
      simpa using ih hj

theorem findIdx0_append {α : Type} [DecidableEq α] {x : α} :
    ∀ {s : List α} (t : List α) {i : Nat},
      findIdx0 x s = some i → findIdx0 x (s ++ t) = some i := by
  intro s
  induction s with
  | nil => intro t i h; simp [findIdx0] at h
  | cons y rest ih =>
    intro t i h
    by_cases hy : y = x
    · simp [findIdx0, hy] at h ⊢
      exact h
    · simp [findIdx0, hy] at h ⊢
      obtain ⟨j, hj, rfl⟩ := h
      exact ⟨j, ih t hj, rfl⟩

theorem findIdx0_self_append {α : Type} [DecidableEq α] {x : α} :
    ∀ {s : List α}, findIdx0 x s = none →
      findIdx0 x (s ++ [x]) = some s.length := by
  intro s
  induction s with
  | nil => intro _; simp [findIdx0]
  | cons y rest ih =>
    intro h
    by_cases hy : y = x
    · simp [findIdx0, hy] at h
    · have h2 : findIdx0 x rest = none := by
        cases hfr : findIdx0 x rest with
        | none => rfl
        | some j => simp [findIdx0, hy, hfr] at h
      simp [findIdx0, hy, ih h2]

theorem findIdx0_inj {α : Type} [DecidableEq α] {x y : α} {s : List α} {i : Nat}
    (hx : findIdx0 x s = some i) (hy : findIdx0 y s = some i) : x = y := by
  have h1 := findIdx0_getElem? hx
  have h2 := findIdx0_getElem? hy
  rw [h1] at h2
  exact Option.some_injective _ h2

theorem intern_find {α : Type} [DecidableEq α] (s : List α) (x : α) :
    findIdx0 x (intern s x).1 = some (intern s x).2 := by
  unfold intern
  cases h : findIdx0 x s with
  | some i => simpa using h
  | none => simpa using findIdx0_self_append h

theorem intern_mono {α : Type} [DecidableEq α] {s : List α} (x : α) {y : α}
    {j : Nat} (h : findIdx0 y s = some j) :
    findIdx0 y (intern s x).1 = some j := by
  unfold intern
  cases hx : findIdx0 x s with
  | some i => simpa using h
  | none => simpa using findIdx0_append [x] h

theorem intern_of_found {α : Type} [DecidableEq α] {s : List α} {x : α}
    {i : Nat} (h : findIdx0 x s = some i) : intern s x = (s, i) := by
  unfold intern
  rw [h]

theorem intern_twice_iff {α : Type} [DecidableEq α] (s : List α) (x y : α) :
    (intern (intern s x).1 y).2 = (intern s x).2 ↔ y = x := by
  constructor
  · intro h
    have hx : findIdx0 x (intern (intern s x).1 y).1 =
        some (intern s x).2 := intern_mono y (intern_find s x)
    have hy : findIdx0 y (intern (intern s x).1 y).1 =
        some (intern s x).2 := h ▸ intern_find (intern s x).1 y
    exact findIdx0_inj hy hx
  · intro h
    subst h
    rw [intern_of_found (intern_find s y)]

/-- C1: structurally equal ValueType sequences registered at different times
    receive the same TypeTuple identity and sequences differing in any element
    or in length receive different identities, and the same holds for
    FunctionType over its (params, results) pair of tuples. -/
theorem interned_identity_eq_iff_structural_eq :
    (∀ (ts : List (List ValueType)) (xs ys : List ValueType),
      (registerTypeTuple (registerTypeTuple ts xs).1 ys).2 =
          (registerTypeTuple ts xs).2 ↔ ys = xs) ∧
    (∀ (st : TypeStores) (r1 p1 r2 p2 : List ValueType),
      (registerFunctionType (registerFunctionType st r1 p1).1 r2 p2).2 =
          (registerFunctionType st r1 p1).2 ↔ (r2 = r1 ∧ p2 = p1)) := by
  constructor
  · intro ts xs ys
    simpa [registerTypeTuple] using intern_twice_iff ts xs ys
  · intro st r1 p1 r2 p2
    simp only [registerFunctionType]
    have hr1 : findIdx0 r1 (intern (intern st.tuples r1).1 p1).1 =
        some (intern st.tuples r1).2 :=
      intern_mono p1 (intern_find st.tuples r1)
    have hp1 : findIdx0 p1 (intern (intern st.tuples r1).1 p1).1 =
        some (intern (intern st.tuples r1).1 p1).2 :=
      intern_find (intern st.tuples r1).1 p1
    constructor
    · intro h
      have hr1b : findIdx0 r1
          (intern (intern (intern (intern st.tuples r1).1 p1).1 r2).1 p2).1 =
          some (intern st.tuples r1).2 :=
        intern_mono p2 (intern_mono r2 hr1)
      have hp1b : findIdx0 p1
          (intern (intern (intern (intern st.tuples r1).1 p1).1 r2).1 p2).1 =
          some (intern (intern st.tuples r1).1 p1).2 :=
        intern_mono p2 (intern_mono r2 hp1)
      have hr2 : findIdx0 r2
          (intern (intern (intern (intern st.tuples r1).1 p1).1 r2).1 p2).1 =
          some (intern (intern (intern st.tuples r1).1 p1).1 r2).2 :=
        intern_mono p2 (intern_find (intern (intern st.tuples r1).1 p1).1 r2)
      have hp2 : findIdx0 p2
          (intern (intern (intern (intern st.tuples r1).1 p1).1 r2).1 p2).1 =
          some (intern (intern (intern (intern st.tuples r1).1 p1).1 r2).1 p2).2 :=
        intern_find (intern (intern (intern st.tuples r1).1 p1).1 r2).1 p2
      have hf1b : findIdx0
          ((intern st.tuples r1).2, (intern (intern st.tuples r1).1 p1).2)
          (intern
            (intern st.funcs
              ((intern st.tuples r1).2, (intern (intern st.tuples r1).1 p1).2)).1
            ((intern (intern (intern st.tuples r1).1 p1).1 r2).2,
             (intern (intern (intern (intern st.tuples r1).1 p1).1 r2).1 p2).2)).1 =
          some (intern st.funcs
            ((intern st.tuples r1).2, (intern (intern st.tuples r1).1 p1).2)).2 :=
        intern_mono _ (intern_find st.funcs _)
      have hf2 : findIdx0
          ((intern (intern (intern st.tuples r1).1 p1).1 r2).2,
           (intern (intern (intern (intern st.tuples r1).1 p1).1 r2).1 p2).2)
          (intern
            (intern st.funcs
              ((intern st.tuples r1).2, (intern (intern st.tuples r1).1 p1).2)).1
            ((intern (intern (intern st.tuples r1).1 p1).1 r2).2,
             (intern (intern (intern (intern st.tuples r1).1 p1).1 r2).1 p2).2)).1 =
          some (intern
            (intern st.funcs
              ((intern st.tuples r1).2, (intern (intern st.tuples r1).1 p1).2)).1
            ((intern (intern (intern st.tuples r1).1 p1).1 r2).2,
             (intern (intern (intern (intern st.tuples r1).1 p1).1 r2).1 p2).2)).2 :=
        intern_find _ _
      rw [h] at hf2
      have hpair := findIdx0_inj hf2 hf1b
      rw [Prod.mk.injEq] at hpair
      obtain ⟨h1, h2⟩ := hpair
      rw [h1] at hr2
      rw [h2] at hp2
      exact ⟨findIdx0_inj hr2 hr1b, findIdx0_inj hp2 hp1b⟩
    · rintro ⟨rfl, rfl⟩
      rw [intern_of_found hr1]
      rw [intern_of_found hp1]
      rw [intern_of_found (intern_find st.funcs
        ((intern st.tuples r2).2, (intern (intern st.tuples r2).1 p2).2))]

/-- C9: constructing a FunctionType from the encoding of a canonical
    FunctionType yields the identical identity. -/
theorem functionType_encode_decode_roundtrip :
    ∀ f : FunctionType, functionTypeOfEncoding f.getEncoding = f :=
  fun _ => rfl

/-! Helper lemmas about escapeString. -/

theorem nibbleToHexChar_hex {v : Nat} (h : v ≤ 15) :
    isHexDigitByte (nibbleToHexChar v) = true := by
  unfold isHexDigitByte nibbleToHexChar
  split
  · simp only [Bool.or_eq_true, Bool.and_eq_true, decide_eq_true_eq]
    omega
  · simp only [Bool.or_eq_true, Bool.and_eq_true, decide_eq_true_eq]
    omega

theorem nibble_hi_le (c : Nat) : (c &&& 0xf0) >>> 4 ≤ 15 := by
  rw [Nat.shiftRight_eq_div_pow]
  have h : c &&& 0xf0 ≤ 0xf0 := Nat.and_le_right
  omega

theorem nibble_lo_le (c : Nat) : c &&& 0x0f ≤ 15 := Nat.and_le_right

theorem nibbleToHexChar_printable {v : Nat} (h : v ≤ 15) :
    0x20 ≤ nibbleToHexChar v ∧ nibbleToHexChar v ≤ 0x7e := by
  unfold nibbleToHexChar
  split <;> omega

theorem escapeByte_printable (c : Nat) :
    ∀ b ∈ escapeByte c, 0x20 ≤ b ∧ b ≤ 0x7e := by
  intro b hb
  unfold escapeByte at hb
  split at hb
  · simp at hb; omega
  · split at hb
    · simp at hb; omega
    · split at hb
      · simp at hb; omega
      · split at hb
        · simp at hb
          rcases hb with h | h | h
          · omega
          · exact h ▸ nibbleToHexChar_printable (nibble_hi_le c)
          · exact h ▸ nibbleToHexChar_printable (nibble_lo_le c)
        · simp at hb
          subst hb
          rename_i h1 h2 h3 h4
          omega

theorem escapeString_mem {s : List Nat} {b : Nat} (h : b ∈ escapeString s) :
    0x20 ≤ b ∧ b ≤ 0x7e := by
  induction s with
  | nil => simp [escapeString] at h
  | cons c rest ih =>
    rw [escapeString] at h
    rcases List.mem_append.mp h with h1 | h2
    · exact escapeByte_printable c b h1
    · exact ih h2

/-- C10: every byte escapeString emits lies in the printable range 0x20..0x7e,
    so the escaped output can never contain the indent or dedent sentinel byte
    sequences that expandIndentation interprets. -/
theorem escapeString_printable_no_sentinels :
    (∀ (s : List Nat) (b : Nat), b ∈ escapeString s → 0x20 ≤ b ∧ b ≤ 0x7e) ∧
    (∀ (s pre post : List Nat),
      escapeString s ≠ pre ++ INDENT_BYTES ++ post ∧
      escapeString s ≠ pre ++ DEDENT_BYTES ++ post) := by
  refine ⟨fun s b h => escapeString_mem h, fun s pre post => ⟨?_, ?_⟩⟩
  · intro h
    have hm : (0xe0 : Nat) ∈ escapeString s := by
      rw [h, INDENT_BYTES]
      simp
    have := (escapeString_mem hm).2
    omega
  · intro h
    have hm : (0xe0 : Nat) ∈ escapeString s := by
      rw [h, DEDENT_BYTES]
      simp
    have := (escapeString_mem hm).2
    omega

/-- Witness for escapeString_printable_no_sentinels at a concrete byte. -/
theorem escapeString_printable_no_sentinels_witness :
    0x20 ≤ 0x41 ∧ (0x41 : Nat) ≤ 0x7e :=
  escapeString_printable_no_sentinels.1 [0x41] 0x41 (by decide)

/-- C8 counterexample: the backslash byte is escaped as two backslash bytes,
    a two byte output whose second byte is not a hex digit, not as a backslash
    followed by a two hex digit pair. -/
theorem escapeString_backslash_counterexample :
    escapeString [0x5c] = [0x5c, 0x5c] ∧ (escapeString [0x5c]).length = 2 ∧
    isHexDigitByte 0x5c = false := by decide

/-- C8 (amended): escapeString maps a backslash to two backslashes, a double
    quote to backslash quote, a newline to backslash n, any other byte outside
    0x20..0x7e to a backslash followed by two lowercase hex digits, and copies
    every other byte unchanged. -/
theorem escapeString_per_byte :
    (∀ s, escapeString (0x5c :: s) = 0x5c :: 0x5c :: escapeString s) ∧
    (∀ s, escapeString (0x22 :: s) = 0x5c :: 0x22 :: escapeString s) ∧
    (∀ s, escapeString (0x0a :: s) = 0x5c :: 0x6e :: escapeString s) ∧
    (∀ c s, (c < 0x20 ∨ 0x7e < c) → c ≠ 0x0a →
      escapeString (c :: s) =
        0x5c :: nibbleToHexChar ((c &&& 0xf0) >>> 4) ::
          nibbleToHexChar (c &&& 0x0f) :: escapeString s ∧
      isHexDigitByte (nibbleToHexChar ((c &&& 0xf0) >>> 4)) = true ∧
      isHexDigitByte (nibbleToHexChar (c &&& 0x0f)) = true) ∧
    (∀ c s, 0x20 ≤ c → c ≤ 0x7e → c ≠ 0x5c → c ≠ 0x22 →
      escapeString (c :: s) = c :: escapeString s) := by
  refine ⟨fun s => by simp [escapeString, escapeByte],
    fun s => by simp [escapeString, escapeByte],
    fun s => by simp [escapeString, escapeByte],
    fun c s h1 h2 => ⟨?_, nibbleToHexChar_hex (nibble_hi_le c),
      nibbleToHexChar_hex (nibble_lo_le c)⟩,
    fun c s h1 h2 h3 h4 => ?_⟩
  · rw [escapeString, escapeByte, if_neg (by omega), if_neg (by omega),
      if_neg h2, if_pos h1]
    simp
  · rw [escapeString, escapeByte, if_neg h3, if_neg h4, if_neg (by omega),
      if_neg (by omega)]
    simp

/-- Witness for escapeString_per_byte at the byte 0xe0. -/
theorem escapeString_per_byte_witness :
    escapeString (0xe0 :: []) =
      0x5c :: nibbleToHexChar ((0xe0 &&& 0xf0) >>> 4) ::
        nibbleToHexChar (0xe0 &&& 0x0f) :: escapeString [] ∧
    isHexDigitByte (nibbleToHexChar ((0xe0 &&& 0xf0) >>> 4)) = true ∧
    isHexDigitByte (nibbleToHexChar (0xe0 &&& 0x0f)) = true :=
  escapeString_per_byte.2.2.2.1 0xe0 [] (by decide) (by decide)

/-- C3: expandIndentation scans left to right with a depth counter: an indent
    sentinel bumps the depth and is not copied, a dedent sentinel drops the
    depth and is not copied and is fatal at depth zero, a literal newline is
    followed by depth times two spaces, and any other byte is copied. -/
theorem expandIndentation_behavior :
    (∀ s d, expandIndentation 2 (INDENT_BYTES ++ s) d =
      expandIndentation 2 s (d + 1)) ∧
    (∀ s d, expandIndentation 2 (DEDENT_BYTES ++ s) (d + 1) =
      expandIndentation 2 s d) ∧
    (∀ s, expandIndentation 2 (DEDENT_BYTES ++ s) 0 = none) ∧
    (∀ s d, expandIndentation 2 (0x0a :: s) d =
      (expandIndentation 2 s d).map
        (fun out => 0x0a :: (List.replicate (d * 2) 0x20 ++ out))) ∧
    (∀ c s d, ¬(c = 0xe0 ∧ s.head? = some 0x01) →
      ¬(c = 0xe0 ∧ s.head? = some 0x02) → c ≠ 0x0a →
      expandIndentation 2 (c :: s) d =
        (expandIndentation 2 s d).map (fun out => c :: out)) := by
  refine ⟨fun s d => ?_, fun s d => ?_, fun s => ?_, fun s d => ?_,
    fun c s d h1 h2 h3 => ?_⟩
  · rw [INDENT_BYTES, List.cons_append, List.cons_append, expandIndentation]
    simp
  · rw [DEDENT_BYTES, List.cons_append, List.cons_append, expandIndentation]
    simp
  · rw [DEDENT_BYTES, List.cons_append, List.cons_append, expandIndentation]
    simp
  · rw [expandIndentation]
    simp
  · rw [expandIndentation, if_neg h1, if_neg h2, if_neg h3]

/-- Witness for expandIndentation_behavior at a plain byte. -/
theorem expandIndentation_behavior_witness :
    expandIndentation 2 (0x41 :: []) 0 =
      (expandIndentation 2 [] 0).map (fun out => 0x41 :: out) :=
  expandIndentation_behavior.2.2.2.2 0x41 [] 0 (by decide) (by decide) (by decide)

/-- C4: a branch target depth d is resolved by counting d frames down from the
    top of the control stack; the synthetic function frame renders the numeric
    depth, any other frame renders its label; br 0 directly inside a block
    labelled dollar L renders br dollar L, and br 1 from a block whose only
    enclosing frame is the function frame renders the numeric depth 1. -/
theorem branch_target_resolution :
    (∀ (stack : List ControlContext) (depth : Nat) (h : depth < stack.length),
      getBranchTargetId stack depth h =
        if (stack.reverse.get ⟨depth, by simpa using h⟩).type =
            ControlType.function
        then Nat.repr depth
        else (stack.reverse.get ⟨depth, by simpa using h⟩).labelId) ∧
    (decodeOp ⟨[], [], [], [], [], [], [], []⟩ (WOp.br 0)
        { stack := [⟨ControlType.function, ""⟩, ⟨ControlType.block, "$L"⟩],
          labelScope := ⟨'$', [], []⟩, labelIndex := 0, out := [] } =
      some { stack := [⟨ControlType.function, ""⟩, ⟨ControlType.block, "$L"⟩],
             labelScope := ⟨'$', [], []⟩, labelIndex := 0,
             out := [Tok.text "\nbr $L"] }) ∧
    (decodeOp ⟨[], [], [], [], [], [], [], []⟩ (WOp.br 1)
        { stack := [⟨ControlType.function, ""⟩, ⟨ControlType.block, "$L"⟩],
          labelScope := ⟨'$', [], []⟩, labelIndex := 0, out := [] } =
      some { stack := [⟨ControlType.function, ""⟩, ⟨ControlType.block, "$L"⟩],
             labelScope := ⟨'$', [], []⟩, labelIndex := 0,
             out := [Tok.text "\nbr 1"] }) := by
  refine ⟨fun stack depth h => ?_, by decide, by decide⟩
  have he : stack.length - depth - 1 = stack.length - 1 - depth := by omega
  simp only [getBranchTargetId, List.get_eq_getElem, List.getElem_reverse, he]

/-- Witness for branch_target_resolution on a one frame stack. -/
theorem branch_target_resolution_witness :
    getBranchTargetId [⟨ControlType.function, ""⟩] 0 (by decide) =
      if (([⟨ControlType.function, ""⟩] : List ControlContext).reverse.get
            ⟨0, by decide⟩).type = ControlType.function
      then Nat.repr 0
      else (([⟨ControlType.function, ""⟩] : List ControlContext).reverse.get
            ⟨0, by decide⟩).labelId :=
  branch_target_resolution.1 [⟨ControlType.function, ""⟩] 0 (by decide)

/-- C5 counterexample: exhaustion of the operator stream while control frames
    remain open is not fatal; the decode loop exits and printFunctionBody
    completes normally, with the function frame (and, in the second part, a
    block frame as well) still open. -/
theorem body_exhaustion_completes :
    printFunctionBody ⟨[], [], [], [], [], [], [], []⟩ [] =
      some ([], { stack := [⟨ControlType.function, ""⟩],
                  labelScope := ⟨'$', [], []⟩, labelIndex := 0,
                  out := [Tok.ind, Tok.ded, Tok.ind, Tok.text "\n"] }) ∧
    (printFunctionBody ⟨[], [], [], [], [], [], [], []⟩
        [WOp.block IndexedBlockTypeM.noParametersOrResult]).map
        (fun r => (r.1.length, r.2.stack.length)) = some (0, 2) := by
  constructor
  · decide
  · decide

/-- C5 (amended): the decode loop consumes the body exactly until the control
    stack becomes empty or the operator stream is exhausted; exhaustion with
    frames still open simply ends consumption and is not an error. -/
theorem body_consumption_boundary :
    (∀ (ctx : FnContext) (st : FnState), runBody ctx [] st = some ([], st)) ∧
    (∀ (ctx : FnContext) (ops : List WOp) (st : FnState)
      (r : List WOp × FnState),
      runBody ctx ops st = some r → r.1 = [] ∨ r.2.stack = []) := by
  constructor
  · intro ctx st
    rfl
  · intro ctx ops
    induction ops with
    | nil =>
      intro st r h
      rw [runBody] at h
      obtain rfl : ([], st) = r := Option.some_injective _ h
      left
      rfl
    | cons op rest ih =>
      intro st r h
      rw [runBody] at h
      by_cases hs : st.stack.length = 0
      · rw [if_pos hs] at h
        obtain rfl : (op :: rest, st) = r := Option.some_injective _ h
        right
        exact List.length_eq_zero.mp hs
      · rw [if_neg hs] at h
        cases hd : decodeOp ctx op st with
        | none => rw [hd] at h; cases h
        | some st1 => rw [hd] at h; exact ih st1 r h

/-- Witness for body_consumption_boundary on the empty operator stream. -/
theorem body_consumption_boundary_witness :
    ([] : List WOp) = [] ∨ initialFnState.stack = [] :=
  body_consumption_boundary.2 ⟨[], [], [], [], [], [], [], []⟩ [] initialFnState
    ([], initialFnState) rfl

/-! Helper lemmas about decimal representations and the NameScope probe. -/

theorem charVal_digitChar : ∀ k, k < 10 → charVal (Nat.digitChar k) = k := by
  decide

theorem chVal_append (l : List Char) (c : Char) :
    chVal (l ++ [c]) = chVal l * 10 + charVal c := by
  simp [chVal, List.foldl_append]

theorem chVal_decChars : ∀ n, chVal (decChars n) = n := by
  intro n
  induction n using Nat.strong_induction_on with
  | _ n ih =>
    rw [decChars]
    split
    · rename_i h
      have hm : n % 10 < 10 := Nat.mod_lt _ (by norm_num)
      simp only [chVal, List.foldl_cons, List.foldl_nil, Nat.zero_mul,
        Nat.zero_add]
      rw [charVal_digitChar _ hm]
      omega
    · rename_i h
      rw [chVal_append]
      have hpos : 0 < n := by
        rcases Nat.eq_zero_or_pos n with h0 | h0
        · exact absurd (by simp [h0]) h
        · exact h0
      have hlt : n / 10 < n := Nat.div_lt_self hpos (by norm_num)
      rw [ih _ hlt]
      have hm : n % 10 < 10 := Nat.mod_lt _ (by norm_num)
      rw [charVal_digitChar _ hm]
      omega

theorem decChars_inj {a b : Nat} (h : decChars a = decChars b) : a = b := by
  rw [← chVal_decChars a, ← chVal_decChars b, h]

theorem toDigitsCore_decChars :
    ∀ (fuel n : Nat) (ds : List Char), n < fuel →
      Nat.toDigitsCore 10 fuel n ds = decChars n ++ ds := by
  intro fuel
  induction fuel with
  | zero => intro n ds h; omega
  | succ fuel ih =>
    intro n ds h
    rw [Nat.toDigitsCore]
    by_cases h10 : n / 10 = 0
    · simp only [h10, if_pos]
      rw [decChars, dif_pos h10]
      simp
    · simp only [h10, if_neg, if_false]
      have hpos : 0 < n := by
        rcases Nat.eq_zero_or_pos n with h0 | h0
        · exact absurd (by simp [h0]) h10
        · exact h0
      have hlt : n / 10 < fuel := by
        have := Nat.div_lt_self hpos (show 1 < 10 by norm_num)
        omega
      rw [ih _ _ hlt]
      conv_rhs => rw [decChars]
      rw [dif_neg h10, List.append_assoc, List.singleton_append]

theorem repr_decChars (n : Nat) : Nat.repr n = (decChars n).asString := by
  rw [Nat.repr, Nat.toDigits, toDigitsCore_decChars (n + 1) n [] (Nat.lt_succ_self n)]
  simp

theorem repr_inj {a b : Nat} (h : Nat.repr a = Nat.repr b) : a = b := by
  rw [repr_decChars, repr_decChars] at h
  exact decChars_inj (congrArg String.data h)

theorem string_append_left_cancel {base x y : String}
    (h : base ++ x = base ++ y) : x = y := by
  have hd := congrArg String.data h
  rw [String.data_append, String.data_append] at hd
  exact String.ext (List.append_cancel_left hd)

theorem cand_inj (base : String) (start : Nat) :
    Function.Injective (fun j => base ++ Nat.repr (start + j)) := by
  intro a b h
  have h2 := string_append_left_cancel h
  have h3 := repr_inj h2
  omega

theorem exists_fresh (taken : List String) (base : String) (start : Nat) :
    ∃ j, j < taken.length + 1 ∧ (base ++ Nat.repr (start + j)) ∉ taken := by
  by_contra hc
  push_neg at hc
  have hsub : ((List.range (taken.length + 1)).map
      (fun j => base ++ Nat.repr (start + j))) ⊆ taken := by
    intro x hx
    obtain ⟨j, hj, rfl⟩ := List.mem_map.mp hx
    exact hc j (List.mem_range.mp hj)
  have hnd : ((List.range (taken.length + 1)).map
      (fun j => base ++ Nat.repr (start + j))).Nodup :=
    (List.nodup_range _).map (cand_inj base start)
  have hle := (hnd.subperm hsub).length_le
  rw [List.length_map, List.length_range] at hle
  omega

theorem probeAux_fresh (taken : List String) (base : String) :
    ∀ (gas start : Nat),
      (∃ j, j < gas ∧ (base ++ Nat.repr (start + j)) ∉ taken) →
      (probeAux taken base gas start).1 ∉ taken := by
  intro gas
  induction gas with
  | zero =>
    intro start h
    obtain ⟨j, hj, _⟩ := h
    omega
  | succ gas ih =>
    intro start h
    by_cases hmem : (base ++ Nat.repr start) ∈ taken
    · have hstep : probeAux taken base (gas + 1) start =
          probeAux taken base gas (start + 1) := by
        rw [probeAux]
        simp only [if_pos hmem]
      rw [hstep]
      apply ih
      obtain ⟨j, hj, hn⟩ := h
      cases j with
      | zero =>
        rw [Nat.add_zero] at hn
        exact absurd hmem hn
      | succ j =>
        refine ⟨j, by omega, ?_⟩
        rw [show start + 1 + j = start + (j + 1) by omega]
        exact hn
    · have hstep : probeAux taken base (gas + 1) start =
          (base ++ Nat.repr start, start + 1) := by
        rw [probeAux]
        simp only [if_neg hmem]
      rw [hstep]
      exact hmem

theorem nameScope_map_spec (scope : NameScope) (name : String) :
    ((scope.map name).1).sigil = scope.sigil ∧
    ∃ base : String,
      (scope.map name).2 = String.singleton scope.sigil ++ base ∧
      base ∉ scope.nameSet ∧
      ((scope.map name).1).nameSet = base :: scope.nameSet := by
  by_cases hc : name.length = 0 ∨ name ∈ scope.nameSet
  · have h1 : scope.map name =
        (⟨scope.sigil,
          (probeAux scope.nameSet
            (if name.length = 0 then name else name ++ "_")
            (scope.nameSet.length + 1) (lookupCounter scope.counters name)).1
            :: scope.nameSet,
          (name, (probeAux scope.nameSet
            (if name.length = 0 then name else name ++ "_")
            (scope.nameSet.length + 1)
            (lookupCounter scope.counters name)).2) :: scope.counters⟩,
         String.singleton scope.sigil ++
           (probeAux scope.nameSet
             (if name.length = 0 then name else name ++ "_")
             (scope.nameSet.length + 1)
             (lookupCounter scope.counters name)).1) := by
      simp only [NameScope.map]
      rw [if_pos hc]
    rw [h1]
    refine ⟨rfl, _, rfl, ?_, rfl⟩
    exact probeAux_fresh _ _ _ _ (exists_fresh scope.nameSet _ _)
  · have h1 : scope.map name =
        (⟨scope.sigil, name :: scope.nameSet, scope.counters⟩,
         String.singleton scope.sigil ++ name) := by
      simp only [NameScope.map]
      rw [if_neg hc]
    rw [h1]
    exact ⟨rfl, name, rfl, fun hm => hc (Or.inr hm), rfl⟩

theorem mapNames_spec :
    ∀ (names : List String) (scope : NameScope),
      ∃ l : List String,
        (mapNames scope names).2 =
          l.map (fun b => String.singleton scope.sigil ++ b) ∧
        l.Nodup ∧ (∀ b ∈ l, b ∉ scope.nameSet) ∧
        (∀ b ∈ l, b ∈ ((mapNames scope names).1).nameSet) ∧
        ((mapNames scope names).1).sigil = scope.sigil ∧
        (∀ x ∈ scope.nameSet, x ∈ ((mapNames scope names).1).nameSet) := by
  intro names
  induction names with
  | nil =>
    intro scope
    exact ⟨[], rfl, List.nodup_nil, by simp, by simp, rfl,
      fun x hx => hx⟩
  | cons n rest ih =>
    intro scope
    obtain ⟨hs, b0, hr, hb0, hset⟩ := nameScope_map_spec scope n
    obtain ⟨l, hl1, hl2, hl3, hl4, hl5, hl6⟩ := ih (scope.map n).1
    have hout : (mapNames scope (n :: rest)).2 =
        (scope.map n).2 :: (mapNames (scope.map n).1 rest).2 := rfl
    have hfin : (mapNames scope (n :: rest)).1 =
        (mapNames (scope.map n).1 rest).1 := rfl
    refine ⟨b0 :: l, ?_, ?_, ?_, ?_, ?_, ?_⟩
    · rw [hout, hl1, hs, hr]
      rfl
    · rw [List.nodup_cons]
      refine ⟨fun hb => ?_, hl2⟩
      have := hl3 b0 hb
      rw [hset] at this
      exact this (List.mem_cons_self b0 scope.nameSet)
    · intro b hb
      rcases List.mem_cons.mp hb with rfl | hbl
      · exact hb0
      · intro hmem
        exact hl3 b hbl (by rw [hset]; exact List.mem_cons_of_mem _ hmem)
    · intro b hb
      rw [hfin]
      rcases List.mem_cons.mp hb with rfl | hbl
      · exact hl6 b (by rw [hset]; exact List.mem_cons_self _ _)
      · exact hl4 b hbl
    · rw [hfin]
      exact hl5.trans hs
    · intro x hx
      rw [hfin]
      exact hl6 x (by rw [hset]; exact List.mem_cons_of_mem _ hx)

/-- C2: feeding candidate names (duplicates and empty strings included) through
    one NameScope yields pairwise distinct names, each prefixed with the scope
    sigil; mapping the candidate foo twice yields dollar foo then dollar foo_0. -/
theorem nameScope_assigns_distinct_names :
    (∀ (scope : NameScope) (names : List String),
      ((mapNames scope names).2).Nodup ∧
      ∀ r ∈ (mapNames scope names).2,
        ∃ b, r = String.singleton scope.sigil ++ b) ∧
    (mapNames ⟨'$', [], []⟩ ["foo", "foo"]).2 = ["$foo", "$foo_0"] := by
  constructor
  · intro scope names
    obtain ⟨l, hl1, hl2, _, _, _, _⟩ := mapNames_spec names scope
    constructor
    · rw [hl1]
      exact hl2.map (fun a b hab => string_append_left_cancel hab)
    · intro r hr
      rw [hl1] at hr
      obtain ⟨b, _, rfl⟩ := List.mem_map.mp hr
      exact ⟨b, rfl⟩
  · decide

/-- Witness for nameScope_assigns_distinct_names at the duplicate foo pair. -/
theorem nameScope_assigns_distinct_names_witness :
    ∃ b, "$foo" = String.singleton '$' ++ b :=
  (nameScope_assigns_distinct_names.1 ⟨'$', [], []⟩ ["foo", "foo"]).2 "$foo"
    (by decide)

/-- C7: the catch operator closes and reopens the indent level and mutates the
    top frame kind to catch, but the name it prints after the catch keyword is
    the entry of the function display name table at the exception type index,
    not the exception type display name held in the exception type table. -/
theorem catch_prints_function_table_name :
    decodeOp ⟨[], ["$f0"], [], ["$e0"], [], [], [], []⟩ (WOp.catch_ 0)
        { stack := [⟨ControlType.function, ""⟩, ⟨ControlType.try_, "try"⟩],
          labelScope := ⟨'$', [], []⟩, labelIndex := 0, out := [] } =
      some { stack := [⟨ControlType.function, ""⟩, ⟨ControlType.catch_, "try"⟩],
             labelScope := ⟨'$', [], []⟩, labelIndex := 0,
             out := [Tok.ded, Tok.text "\ncatch ", Tok.text "$f0", Tok.ind] } ∧
    Tok.text "$e0" ∉
      [Tok.ded, Tok.text "\ncatch ", Tok.text "$f0", Tok.ind] := by
  constructor
  · decide
  · decide

/-! Helper lemmas about the linking section invariant. -/

theorem netDepth_append (a b : List Tok) :
    netDepth (a ++ b) = netDepth a + netDepth b := by
  simp [netDepth]

theorem netDepth_single (t : Tok) : netDepth [t] = t.delta := by
  simp [netDepth]

theorem lowNN_append_single {l : List Tok} {t : Tok}
    (h : ∀ n, 0 ≤ netDepth (l.take n)) (h2 : 0 ≤ netDepth l + t.delta) :
    ∀ n, 0 ≤ netDepth ((l ++ [t]).take n) := by
  intro n
  rcases le_or_lt n l.length with hn | hn
  · rw [List.take_append_eq_append_take, show n - l.length = 0 by omega]
    simpa using h n
  · rw [List.take_of_length_le (by simp; omega), netDepth_append,
      netDepth_single]
    exact h2

theorem LinkInv_say {st : LinkSt} (h : LinkInv st) (s : String) :
    LinkInv (st.say s) := by
  obtain ⟨h1, h2, h3⟩ := h
  refine ⟨?_, ?_, h3⟩
  · simp [LinkSt.say, netDepth_append, netDepth_single, Tok.delta, h1]
  · exact lowNN_append_single h2 (by simp [Tok.delta]; omega)

theorem LinkInv_pushInd {st : LinkSt} (h : LinkInv st) : LinkInv st.pushInd := by
  obtain ⟨h1, h2, h3⟩ := h
  refine ⟨?_, ?_, by simp [LinkSt.pushInd]⟩
  · simp [LinkSt.pushInd, netDepth_append, netDepth_single, Tok.delta, h1]
  · exact lowNN_append_single h2 (by simp [Tok.delta]; omega)

theorem LinkInv_popInd {st : LinkSt} (h : LinkInv st) (h2 : 2 ≤ st.depth) :
    LinkInv st.popInd := by
  obtain ⟨h1, h3, h4⟩ := h
  refine ⟨?_, ?_, by simp [LinkSt.popInd]; omega⟩
  · simp [LinkSt.popInd, netDepth_append, netDepth_single, Tok.delta, h1]
    omega
  · exact lowNN_append_single h3 (by simp [Tok.delta, h1]; omega)

theorem segEntries_inv : ∀ (n : Nat) (s : List Nat) (st : LinkSt),
    LinkInv st →
    LinkInv (segEntries n s st).1 ∧ (segEntries n s st).1.depth = st.depth := by
  intro n
  induction n with
  | zero => intro s st h; exact ⟨h, by trivial⟩
  | succ n ih =>
    intro s st h
    cases hr1 : readString s with
    | none => simp only [segEntries, hr1]; exact ⟨h, by trivial⟩
    | some rn =>
      cases hr2 : readVarUInt32 rn.2 with
      | none => simp only [segEntries, hr1, hr2]; exact ⟨h, by trivial⟩
      | some ra =>
        cases hr3 : readVarUInt32 ra.2 with
        | none => simp only [segEntries, hr1, hr2, hr3]; exact ⟨h, by trivial⟩
        | some rf =>
          simp only [segEntries, hr1, hr2, hr3]
          exact ih rf.2 _
            (LinkInv_say (LinkInv_say (LinkInv_say (LinkInv_say h "\n") _) _) _)

theorem decodeSegmentInfo_inv (s : List Nat) (st : LinkSt) (h : LinkInv st) :
    LinkInv (decodeSegmentInfo s st).1 ∧
    ((decodeSegmentInfo s st).2 = true →
      (decodeSegmentInfo s st).1.depth = st.depth) := by
  have hd1 : 1 ≤ st.depth := h.2.2
  have hp : LinkInv ((st.say "\nSegments:").pushInd) :=
    LinkInv_pushInd (LinkInv_say h _)
  cases hr : readVarUInt32 s with
  | none =>
    simp only [decodeSegmentInfo, hr]
    exact ⟨hp, by intro hfalse; cases hfalse⟩
  | some rn =>
    obtain ⟨hi, hd⟩ := segEntries_inv rn.1 rn.2 _ hp
    cases hse : segEntries rn.1 rn.2 ((st.say "\nSegments:").pushInd) with
    | mk st1 res =>
      rw [hse] at hi hd
      cases res with
      | none =>
        simp only [decodeSegmentInfo, hr, hse]
        exact ⟨hi, by intro hfalse; cases hfalse⟩
      | some rest =>
        simp only [decodeSegmentInfo, hr, hse]
        have h2 : 2 ≤ st1.depth := by
          rw [hd]
          simp only [LinkSt.pushInd, LinkSt.say]
          omega
        refine ⟨LinkInv_popInd hi h2, fun _ => ?_⟩
        simp only [LinkSt.popInd]
        rw [hd]
        simp [LinkSt.pushInd, LinkSt.say]

theorem initFuncEntries_inv (ctx : LinkCtx) :
    ∀ (n : Nat) (s : List Nat) (st : LinkSt), LinkInv st →
      LinkInv (initFuncEntries ctx n s st).1 ∧
      (initFuncEntries ctx n s st).1.depth = st.depth := by
  intro n
  induction n with
  | zero => intro s st h; exact ⟨h, by trivial⟩
  | succ n ih =>
    intro s st h
    cases hr : readVarUInt32 s with
    | none => simp only [initFuncEntries, hr]; exact ⟨h, by trivial⟩
    | some rf =>
      simp only [initFuncEntries, hr]
      by_cases hb : rf.1 < ctx.functionNames.length
      · rw [if_pos hb]
        exact ih rf.2 _ (LinkInv_say (LinkInv_say h _) _)
      · rw [if_neg hb]
        exact ih rf.2 _ (LinkInv_say (LinkInv_say h _) _)

theorem decodeInitFuncs_inv (ctx : LinkCtx) (s : List Nat) (st : LinkSt)
    (h : LinkInv st) :
    LinkInv (decodeInitFuncs ctx s st).1 ∧
    ((decodeInitFuncs ctx s st).2 = true →
      (decodeInitFuncs ctx s st).1.depth = st.depth) := by
  have hd1 : 1 ≤ st.depth := h.2.2
  have hp : LinkInv ((st.say "\nInit funcs:").pushInd) :=
    LinkInv_pushInd (LinkInv_say h _)
  cases hr : readVarUInt32 s with
  | none =>
    simp only [decodeInitFuncs, hr]
    exact ⟨hp, by intro hfalse; cases hfalse⟩
  | some rn =>
    obtain ⟨hi, hd⟩ := initFuncEntries_inv ctx rn.1 rn.2 _ hp
    cases hse : initFuncEntries ctx rn.1 rn.2
        ((st.say "\nInit funcs:").pushInd) with
    | mk st1 res =>
      rw [hse] at hi hd
      cases res with
      | none =>
        simp only [decodeInitFuncs, hr, hse]
        exact ⟨hi, by intro hfalse; cases hfalse⟩
      | some rest =>
        simp only [decodeInitFuncs, hr, hse]
        have h2 : 2 ≤ st1.depth := by
          rw [hd]
          simp only [LinkSt.pushInd, LinkSt.say]
          omega
        refine ⟨LinkInv_popInd hi h2, fun _ => ?_⟩
        simp only [LinkSt.popInd]
        rw [hd]
        simp [LinkSt.pushInd, LinkSt.say]

theorem comdatSyms_inv (ctx : LinkCtx) :
    ∀ (n : Nat) (s : List Nat) (st : LinkSt), LinkInv st →
      LinkInv (comdatSyms ctx n s st).1 ∧
      (comdatSyms ctx n s st).1.depth = st.depth := by
  intro n
  induction n with
  | zero => intro s st h; exact ⟨h, by trivial⟩
  | succ n ih =>
    intro s st h
    cases hr1 : readVarUInt32 s with
    | none => simp only [comdatSyms, hr1]; exact ⟨h, by trivial⟩
    | some rk =>
      cases hr2 : readVarUInt32 rk.2 with
      | none => simp only [comdatSyms, hr1, hr2]; exact ⟨h, by trivial⟩
      | some ri =>
        have h1 : LinkInv (st.say "\nSymbol: ") := LinkInv_say h _
        rcases hk : rk.1 with _ | _ | _ | k
        · simp only [comdatSyms, hr1, hr2, hk]
          exact ih ri.2 _ (LinkInv_say (LinkInv_say h1 _) _)
        · simp only [comdatSyms, hr1, hr2, hk]
          by_cases hb : ri.1 < ctx.functionNames.length
          · rw [if_pos hb]
            exact ih ri.2 _ (LinkInv_say (LinkInv_say h1 _) _)
          · rw [if_neg hb]
            exact ⟨LinkInv_say (LinkInv_say h1 _) _, rfl⟩
        · simp only [comdatSyms, hr1, hr2, hk]
          by_cases hb : ri.1 < ctx.globalNames.length
          · rw [if_pos hb]
            exact ih ri.2 _ (LinkInv_say (LinkInv_say h1 _) _)
          · rw [if_neg hb]
            exact ⟨LinkInv_say (LinkInv_say h1 _) _, rfl⟩
        · simp only [comdatSyms, hr1, hr2, hk]
          exact ⟨LinkInv_say h1 _, rfl⟩

theorem comdatEntries_inv (ctx : LinkCtx) :
    ∀ (n : Nat) (s : List Nat) (st : LinkSt), LinkInv st →
      LinkInv (comdatEntries ctx n s st).1 ∧
      ((comdatEntries ctx n s st).2.isSome = true →
        (comdatEntries ctx n s st).1.depth = st.depth) := by
  intro n
  induction n with
  | zero => intro s st h; exact ⟨h, fun _ => rfl⟩
  | succ n ih =>
    intro s st h
    cases hr1 : readString s with
    | none =>
      simp only [comdatEntries, hr1]
      exact ⟨h, by intro hfalse; simp at hfalse⟩
    | some rn =>
      cases hr2 : readVarUInt32 rn.2 with
      | none =>
        simp only [comdatEntries, hr1, hr2]
        exact ⟨h, by intro hfalse; simp at hfalse⟩
      | some rf =>
        have h1 : LinkInv ((st.say "\n").say rn.1) :=
          LinkInv_say (LinkInv_say h _) _
        have h2 : LinkInv (if rf.1 ≠ 0 then
            ((st.say "\n").say rn.1).say (" OtherFlags=" ++ Nat.repr rf.1)
            else (st.say "\n").say rn.1) := by
          split
          · exact LinkInv_say h1 _
          · exact h1
        have hdep : (if rf.1 ≠ 0 then
            ((st.say "\n").say rn.1).say (" OtherFlags=" ++ Nat.repr rf.1)
            else (st.say "\n").say rn.1).depth = st.depth := by
          split <;> rfl
        have h3 : LinkInv ((if rf.1 ≠ 0 then
            ((st.say "\n").say rn.1).say (" OtherFlags=" ++ Nat.repr rf.1)
            else (st.say "\n").say rn.1).pushInd) := LinkInv_pushInd h2
        cases hr3 : readVarUInt32 rf.2 with
        | none =>
          simp only [comdatEntries, hr1, hr2, hr3]
          exact ⟨h3, by intro hfalse; simp at hfalse⟩
        | some rns =>
          obtain ⟨hi, hd⟩ := comdatSyms_inv ctx rns.1 rns.2 _ h3
          cases hcs : comdatSyms ctx rns.1 rns.2 ((if rf.1 ≠ 0 then
              ((st.say "\n").say rn.1).say (" OtherFlags=" ++ Nat.repr rf.1)
              else (st.say "\n").say rn.1).pushInd) with
          | mk st1 res =>
            rw [hcs] at hi hd
            cases res with
            | none =>
              simp only [comdatEntries, hr1, hr2, hr3, hcs]
              exact ⟨hi, by intro hfalse; simp at hfalse⟩
            | some rest =>
              simp only [comdatEntries, hr1, hr2, hr3, hcs]
              have hst1 : 2 ≤ st1.depth := by
                rw [hd]
                simp only [LinkSt.pushInd]
                rw [hdep]
                have := h.2.2
                omega
              have h4 : LinkInv st1.popInd := LinkInv_popInd hi hst1
              obtain ⟨hi2, hd2⟩ := ih rest st1.popInd h4
              refine ⟨hi2, fun hsome => ?_⟩
              rw [hd2 hsome]
              simp only [LinkSt.popInd]
              rw [hd]
              simp only [LinkSt.pushInd]
              rw [hdep]
              omega

theorem decodeComdatInfo_inv (ctx : LinkCtx) (s : List Nat) (st : LinkSt)
    (h : LinkInv st) :
    LinkInv (decodeComdatInfo ctx s st).1 ∧
    ((decodeComdatInfo ctx s st).2 = true →
      (decodeComdatInfo ctx s st).1.depth = st.depth) := by
  have hd1 : 1 ≤ st.depth := h.2.2
  have hp : LinkInv ((st.say "\nComdats:").pushInd) :=
    LinkInv_pushInd (LinkInv_say h _)
  cases hr : readVarUInt32 s with
  | none =>
    simp only [decodeComdatInfo, hr]
    exact ⟨hp, by intro hfalse; cases hfalse⟩
  | some rn =>
    obtain ⟨hi, hd⟩ := comdatEntries_inv ctx rn.1 rn.2 _ hp
    cases hse : comdatEntries ctx rn.1 rn.2 ((st.say "\nComdats:").pushInd) with
    | mk st1 res =>
      rw [hse] at hi hd
      cases res with
      | none =>
        simp only [decodeComdatInfo, hr, hse]
        exact ⟨hi, by intro hfalse; cases hfalse⟩
      | some rest =>
        simp only [decodeComdatInfo, hr, hse]
        have h2 : 2 ≤ st1.depth := by
          rw [hd (by simp)]
          simp only [LinkSt.pushInd, LinkSt.say]
          omega
        refine ⟨LinkInv_popInd hi h2, fun _ => ?_⟩
        simp only [LinkSt.popInd]
        rw [hd (by simp)]
        simp [LinkSt.pushInd, LinkSt.say]

theorem sayFlags_inv {st : LinkSt} (flags : Nat) (h : LinkInv st) :
    LinkInv (sayFlags flags st) ∧ (sayFlags flags st).depth = st.depth := by
  constructor
  · simp only [sayFlags]
    split <;> split <;> split <;> split <;> split <;>
      (repeat apply LinkInv_say) <;> exact h
  · simp only [sayFlags]
    split <;> split <;> split <;> split <;> split <;> rfl

theorem symTabEntries_inv (ctx : LinkCtx) :
    ∀ (n : Nat) (s : List Nat) (st : LinkSt), LinkInv st →
      LinkInv (symTabEntries ctx n s st).1 ∧
      (∀ rest, (symTabEntries ctx n s st).2 = SymOut.ok rest →
        (symTabEntries ctx n s st).1.depth = st.depth) := by
  intro n
  induction n with
  | zero => intro s st h; exact ⟨h, fun rest _ => rfl⟩
  | succ n ih =>
    intro s st h
    cases hr1 : readByte s with
    | none =>
      simp only [symTabEntries, hr1]
      exact ⟨h, by intro rest hfalse; simp at hfalse⟩
    | some rk =>
      cases hr2 : readVarUInt32 rk.2 with
      | none =>
        simp only [symTabEntries, hr1, hr2]
        exact ⟨h, by intro rest hfalse; simp at hfalse⟩
      | some rf =>
        rcases hk : rk.1 with _ | _ | _ | _ | k
        · cases hr3 : readVarUInt32 rf.2 with
          | none =>
            simp only [symTabEntries, hr1, hr2, hk, hr3]
            exact ⟨h, by intro rest hfalse; simp at hfalse⟩
          | some ri =>
            by_cases hb : ri.1 < ctx.functionImports.length
            · by_cases hb2 : ri.1 < ctx.functionNames.length
              · simp only [symTabEntries, hr1, hr2, hk, hr3, if_pos hb,
                  if_pos hb2]
                obtain ⟨hsf, hsfd⟩ := sayFlags_inv rf.1
                  (LinkInv_say (LinkInv_say (LinkInv_say (LinkInv_say h "\n") _) _) _)
                obtain ⟨hi, hd⟩ := ih ri.2 _ hsf
                exact ⟨hi, fun rest hs => by rw [hd rest hs, hsfd]; rfl⟩
              · simp only [symTabEntries, hr1, hr2, hk, hr3, if_pos hb,
                  if_neg hb2]
                exact ⟨LinkInv_say (LinkInv_say (LinkInv_say h "\n") _) _,
                  by intro rest hfalse; simp at hfalse⟩
            · cases hr4 : readString ri.2 with
              | none =>
                simp only [symTabEntries, hr1, hr2, hk, hr3, if_neg hb, hr4]
                exact ⟨h, by intro rest hfalse; simp at hfalse⟩
              | some rs =>
                by_cases hb2 : ri.1 < ctx.functionNames.length
                · simp only [symTabEntries, hr1, hr2, hk, hr3, if_neg hb, hr4,
                    if_pos hb2]
                  obtain ⟨hsf, hsfd⟩ := sayFlags_inv rf.1
                    (LinkInv_say (LinkInv_say (LinkInv_say (LinkInv_say h "\n") _) _) _)
                  obtain ⟨hi, hd⟩ := ih rs.2 _ hsf
                  exact ⟨hi, fun rest hs => by rw [hd rest hs, hsfd]; rfl⟩
                · simp only [symTabEntries, hr1, hr2, hk, hr3, if_neg hb, hr4,
                    if_neg hb2]
                  exact ⟨LinkInv_say (LinkInv_say (LinkInv_say h "\n") _) _,
                    by intro rest hfalse; simp at hfalse⟩
        · cases hr3 : readString rf.2 with
          | none =>
            simp only [symTabEntries, hr1, hr2, hk, hr3]
            exact ⟨h, by intro rest hfalse; simp at hfalse⟩
          | some rs =>
            cases hr4 : readVarUInt32 rs.2 with
            | none =>
              simp only [symTabEntries, hr1, hr2, hk, hr3, hr4]
              exact ⟨h, by intro rest hfalse; simp at hfalse⟩
            | some ri =>
              cases hr5 : readVarUInt32 ri.2 with
              | none =>
                simp only [symTabEntries, hr1, hr2, hk, hr3, hr4, hr5]
                exact ⟨h, by intro rest hfalse; simp at hfalse⟩
              | some ro =>
                cases hr6 : readVarUInt32 ro.2 with
                | none =>
                  simp only [symTabEntries, hr1, hr2, hk, hr3, hr4, hr5, hr6]
                  exact ⟨h, by intro rest hfalse; simp at hfalse⟩
                | some rb =>
                  simp only [symTabEntries, hr1, hr2, hk, hr3, hr4, hr5, hr6]
                  obtain ⟨hsf, hsfd⟩ := sayFlags_inv rf.1
                    (LinkInv_say (LinkInv_say (LinkInv_say (LinkInv_say
                      (LinkInv_say (LinkInv_say h "\n") _) _) _) _) _)
                  obtain ⟨hi, hd⟩ := ih rb.2 _ hsf
                  exact ⟨hi, fun rest hs => by rw [hd rest hs, hsfd]; rfl⟩
        · cases hr3 : readVarUInt32 rf.2 with
          | none =>
            simp only [symTabEntries, hr1, hr2, hk, hr3]
            exact ⟨h, by intro rest hfalse; simp at hfalse⟩
          | some ri =>
            by_cases hb : ri.1 < ctx.globalImports.length
            · by_cases hb2 : ri.1 < ctx.globalNames.length
              · simp only [symTabEntries, hr1, hr2, hk, hr3, if_pos hb,
                  if_pos hb2]
                obtain ⟨hsf, hsfd⟩ := sayFlags_inv rf.1
                  (LinkInv_say (LinkInv_say (LinkInv_say (LinkInv_say h "\n") _) _) _)
                obtain ⟨hi, hd⟩ := ih ri.2 _ hsf
                exact ⟨hi, fun rest hs => by rw [hd rest hs, hsfd]; rfl⟩
              · simp only [symTabEntries, hr1, hr2, hk, hr3, if_pos hb,
                  if_neg hb2]
                exact ⟨LinkInv_say (LinkInv_say (LinkInv_say h "\n") _) _,
                  by intro rest hfalse; simp at hfalse⟩
            · cases hr4 : readString ri.2 with
              | none =>
                simp only [symTabEntries, hr1, hr2, hk, hr3, if_neg hb, hr4]
                exact ⟨h, by intro rest hfalse; simp at hfalse⟩
              | some rs =>
                by_cases hb2 : ri.1 < ctx.globalNames.length
                · simp only [symTabEntries, hr1, hr2, hk, hr3, if_neg hb, hr4,
                    if_pos hb2]
                  obtain ⟨hsf, hsfd⟩ := sayFlags_inv rf.1
                    (LinkInv_say (LinkInv_say (LinkInv_say (LinkInv_say h "\n") _) _) _)
                  obtain ⟨hi, hd⟩ := ih rs.2 _ hsf
                  exact ⟨hi, fun rest hs => by rw [hd rest hs, hsfd]; rfl⟩
                · simp only [symTabEntries, hr1, hr2, hk, hr3, if_neg hb, hr4,
                    if_neg hb2]
                  exact ⟨LinkInv_say (LinkInv_say (LinkInv_say h "\n") _) _,
                    by intro rest hfalse; simp at hfalse⟩
        · cases hr3 : readVarUInt32 rf.2 with
          | none =>
            simp only [symTabEntries, hr1, hr2, hk, hr3]
            exact ⟨h, by intro rest hfalse; simp at hfalse⟩
          | some ri =>
            simp only [symTabEntries, hr1, hr2, hk, hr3]
            obtain ⟨hsf, hsfd⟩ := sayFlags_inv rf.1
              (LinkInv_say (LinkInv_say (LinkInv_say (LinkInv_say h "\n") _) _) _)
            obtain ⟨hi, hd⟩ := ih ri.2 _ hsf
            exact ⟨hi, fun rest hs => by rw [hd rest hs, hsfd]; rfl⟩
        · simp only [symTabEntries, hr1, hr2, hk]
          exact ⟨LinkInv_say h _, by intro rest hfalse; simp at hfalse⟩

theorem decodeSymbolTable_inv (ctx : LinkCtx) (s : List Nat) (st : LinkSt)
    (h : LinkInv st) :
    LinkInv (decodeSymbolTable ctx s st).1 ∧
    ((decodeSymbolTable ctx s st).2 = LinkResult.ok →
      (decodeSymbolTable ctx s st).1.depth = st.depth) := by
  have hd1 : 1 ≤ st.depth := h.2.2
  have hp : LinkInv ((st.say "\nSymbols:").pushInd) :=
    LinkInv_pushInd (LinkInv_say h _)
  cases hr : readVarUInt32 s with
  | none =>
    simp only [decodeSymbolTable, hr]
    exact ⟨hp, by intro hfalse; simp at hfalse⟩
  | some rn =>
    obtain ⟨hi, hd⟩ := symTabEntries_inv ctx rn.1 rn.2 _ hp
    cases hse : symTabEntries ctx rn.1 rn.2 ((st.say "\nSymbols:").pushInd) with
    | mk st1 res =>
      rw [hse] at hi hd
      cases res with
      | ok rest =>
        simp only [decodeSymbolTable, hr, hse]
        have h2 : 2 ≤ st1.depth := by
          rw [hd rest rfl]
          simp only [LinkSt.pushInd, LinkSt.say]
          omega
        refine ⟨LinkInv_popInd hi h2, fun _ => ?_⟩
        simp only [LinkSt.popInd]
        rw [hd rest rfl]
        simp [LinkSt.pushInd, LinkSt.say]
      | thrown =>
        simp only [decodeSymbolTable, hr, hse]
        exact ⟨hi, by intro hfalse; simp at hfalse⟩
      | crash =>
        simp only [decodeSymbolTable, hr, hse]
        exact ⟨hi, by intro hfalse; simp at hfalse⟩

theorem decodeSubsection_inv (ctx : LinkCtx) (tag : Nat) (sub : List Nat)
    (st : LinkSt) (h : LinkInv st) :
    LinkInv (decodeSubsection ctx tag sub st).1 ∧
    ((decodeSubsection ctx tag sub st).2 = LinkResult.ok →
      (decodeSubsection ctx tag sub st).1.depth = st.depth) := by
  rcases tag with _ | _ | _ | _ | _ | _ | _ | _ | _ | t
  · exact ⟨LinkInv_say h _, by intro hf; cases hf⟩
  · exact ⟨LinkInv_say h _, by intro hf; cases hf⟩
  · exact ⟨LinkInv_say h _, by intro hf; cases hf⟩
  · exact ⟨LinkInv_say h _, by intro hf; cases hf⟩
  · exact ⟨LinkInv_say h _, by intro hf; cases hf⟩
  · obtain ⟨hi, hd⟩ := decodeSegmentInfo_inv sub st h
    cases hds : decodeSegmentInfo sub st with
    | mk st1 res =>
      rw [hds] at hi hd
      cases res with
      | true =>
        simp only [decodeSubsection, hds]
        exact ⟨hi, fun _ => hd rfl⟩
      | false =>
        simp only [decodeSubsection, hds]
        exact ⟨hi, by intro hf; cases hf⟩
  · obtain ⟨hi, hd⟩ := decodeInitFuncs_inv ctx sub st h
    cases hds : decodeInitFuncs ctx sub st with
    | mk st1 res =>
      rw [hds] at hi hd
      cases res with
      | true =>
        simp only [decodeSubsection, hds]
        exact ⟨hi, fun _ => hd rfl⟩
      | false =>
        simp only [decodeSubsection, hds]
        exact ⟨hi, by intro hf; cases hf⟩
  · obtain ⟨hi, hd⟩ := decodeComdatInfo_inv ctx sub st h
    cases hds : decodeComdatInfo ctx sub st with
    | mk st1 res =>
      rw [hds] at hi hd
      cases res with
      | true =>
        simp only [decodeSubsection, hds]
        exact ⟨hi, fun _ => hd rfl⟩
      | false =>
        simp only [decodeSubsection, hds]
        exact ⟨hi, by intro hf; cases hf⟩
  · exact decodeSymbolTable_inv ctx sub st h
  · exact ⟨LinkInv_say h _, by intro hf; cases hf⟩

theorem linkLoop_inv (ctx : LinkCtx) :
    ∀ (fuel : Nat) (s : List Nat) (st : LinkSt), LinkInv st →
      LinkInv (linkLoop ctx fuel s st).1 ∧
      ((linkLoop ctx fuel s st).2 = LinkResult.ok →
        (linkLoop ctx fuel s st).1.depth = st.depth) := by
  intro fuel
  induction fuel with
  | zero =>
    intro s st h
    cases s with
    | nil => exact ⟨h, fun _ => rfl⟩
    | cons b rest => exact ⟨h, fun _ => rfl⟩
  | succ fuel ih =>
    intro s st h
    cases s with
    | nil => exact ⟨h, fun _ => rfl⟩
    | cons b s2 =>
      cases hr1 : readVarUInt32 s2 with
      | none =>
        simp only [linkLoop, hr1]
        exact ⟨h, by intro hf; cases hf⟩
      | some rl =>
        cases hr2 : readBytes rl.1 rl.2 with
        | none =>
          simp only [linkLoop, hr1, hr2]
          exact ⟨h, by intro hf; cases hf⟩
        | some rb =>
          obtain ⟨hsub, hsubd⟩ := decodeSubsection_inv ctx b rb.1 st h
          cases hds : decodeSubsection ctx b rb.1 st with
          | mk st1 res =>
            rw [hds] at hsub hsubd
            cases res with
            | ok =>
              simp only [linkLoop, hr1, hr2, hds]
              obtain ⟨hi, hd⟩ := ih rb.2 st1 hsub
              exact ⟨hi, fun ht => by rw [hd ht]; exact hsubd rfl⟩
            | thrown =>
              simp only [linkLoop, hr1, hr2, hds]
              exact ⟨hsub, by intro hf; cases hf⟩
            | crash =>
              simp only [linkLoop, hr1, hr2, hds]
              exact ⟨hsub, by intro hf; cases hf⟩

theorem netDepth_replicate_ded (k : Nat) :
    netDepth (List.replicate k Tok.ded) = -(k : Int) := by
  simp [netDepth, List.map_replicate, Tok.delta, List.sum_replicate]

theorem lowNN_append_replicate :
    ∀ (k : Nat) (l : List Tok),
      (∀ n, 0 ≤ netDepth (l.take n)) → (k : Int) ≤ netDepth l →
      ∀ n, 0 ≤ netDepth ((l ++ List.replicate k Tok.ded).take n) := by
  intro k
  induction k with
  | zero => intro l h h2 n; simpa using h n
  | succ k ih =>
    intro l h h2 n
    have h1 : ∀ m, 0 ≤ netDepth ((l ++ [Tok.ded]).take m) :=
      lowNN_append_single h (by
        simp only [Tok.delta]
        push_cast at h2
        omega)
    have h2b : (k : Int) ≤ netDepth (l ++ [Tok.ded]) := by
      rw [netDepth_append, netDepth_single]
      simp only [Tok.delta]
      push_cast at h2
      omega
    have h3 := ih (l ++ [Tok.ded]) h1 h2b n
    rw [List.append_assoc, List.singleton_append] at h3
    rw [List.replicate_succ]
    exact h3

theorem linkingDecode_inv (ctx : LinkCtx) (data : List Nat) :
    LinkInv (linkingDecode ctx data).1 ∧
    ((linkingDecode ctx data).2 = LinkResult.ok →
      (linkingDecode ctx data).1.depth = 1) := by
  have h0 : LinkInv ⟨[Tok.text "\n(; linking section:", Tok.ind], 1⟩ := by
    refine ⟨by simp [netDepth, Tok.delta], ?_, le_refl 1⟩
    intro n
    rcases n with _ | _ | n
    · simp [netDepth]
    · simp [netDepth, Tok.delta]
    · rw [List.take_of_length_le
        (by simp only [List.length_cons, List.length_nil]; omega)]
      simp [netDepth, Tok.delta]
  cases hv : readVarUInt32 data with
  | none =>
    simp only [linkingDecode, hv]
    exact ⟨h0, by intro hf; cases hf⟩
  | some rv =>
    simp only [linkingDecode, hv]
    obtain ⟨hi, hd⟩ := linkLoop_inv ctx (rv.2.length + 1) rv.2 _ (LinkInv_say h0 _)
    exact ⟨hi, fun ht => hd ht⟩

/-- C6: for every byte content of a linking section, a decode failure (a
    thrown FatalSerializationException: unknown sub-section tag, unknown
    symbol or comdat kind, an out of range required comdat function or global
    reference, or any serialization error) is caught at the boundary of the
    section decode: whenever printLinkingSection completes, its comment has
    balanced sentinels that never dip below the section baseline (all indent
    levels opened within the section are force closed) and carries the visible
    failure marker when the decode threw, and a throw never leaves
    printLinkingSection incomplete, so the rest of the module render continues
    unaffected.  Only the crash outcome, the undefined behavior of the
    unchecked symbol display name indexing, which is none of the failure kinds
    the claim lists, escapes the boundary. -/
theorem linking_section_scoped_failure :
    (∀ (ctx : LinkCtx) (data : List Nat) (out : List Tok),
      printLinkingSection ctx data = some out →
      netDepth out = 0 ∧ (∀ n, 0 ≤ netDepth (out.take n)) ∧
      ((linkingDecode ctx data).2 = LinkResult.thrown →
        Tok.text "\nFatal serialization exception!" ∈ out)) ∧
    (∀ (ctx : LinkCtx) (data : List Nat),
      (linkingDecode ctx data).2 ≠ LinkResult.crash →
      (printLinkingSection ctx data).isSome = true) := by
  constructor
  · intro ctx data out hout
    obtain ⟨hi, hd⟩ := linkingDecode_inv ctx data
    cases hr : linkingDecode ctx data with
    | mk st0 res =>
      rw [hr] at hi hd
      obtain ⟨h1, h2, h3⟩ := hi
      cases res with
      | crash =>
        simp only [printLinkingSection, hr] at hout
        cases hout
      | ok =>
        simp only [printLinkingSection, hr, Option.some.injEq] at hout
        subst hout
        have hdep : st0.depth = 1 := hd rfl
        have hnet1 : netDepth st0.toks = 1 := by
          have h1b : netDepth st0.toks = (st0.depth : Int) := h1
          rw [h1b, hdep]
          norm_num
        have h2b : ∀ n, 0 ≤ netDepth (st0.toks.take n) := h2
        have hl1 := lowNN_append_single (t := Tok.ded) h2b
          (by rw [hnet1]; norm_num [Tok.delta])
        have hl2 := lowNN_append_single (t := Tok.text "\n;)") hl1
          (by rw [netDepth_append, netDepth_single, hnet1]; norm_num [Tok.delta])
        refine ⟨?_, ?_, ?_⟩
        · rw [show st0.toks ++ [Tok.ded, Tok.text "\n;)"] =
              (st0.toks ++ [Tok.ded]) ++ [Tok.text "\n;)"] by
            rw [List.append_assoc, List.singleton_append]]
          rw [netDepth_append, netDepth_append, netDepth_single,
            netDepth_single, hnet1]
          norm_num [Tok.delta]
        · intro n
          have h4 := hl2 n
          rw [List.append_assoc, List.singleton_append] at h4
          exact h4
        · intro hfalse
          cases hfalse
      | thrown =>
        simp only [printLinkingSection, hr, Option.some.injEq] at hout
        subst hout
        have hshape :
            (closeAll (st0.say "\nFatal serialization exception!")).toks ++
              [Tok.ded, Tok.text "\n;)"] =
            (((st0.say "\nFatal serialization exception!").toks ++
              List.replicate (st0.depth - 1) Tok.ded) ++ [Tok.ded]) ++
              [Tok.text "\n;)"] := by
          simp [closeAll, LinkSt.say, List.append_assoc]
        rw [hshape]
        have hs1 : netDepth (st0.say "\nFatal serialization exception!").toks =
            ((st0.say "\nFatal serialization exception!").depth : Int) :=
          (LinkInv_say ⟨h1, h2, h3⟩ _).1
        have hs2 : ∀ n, 0 ≤ netDepth
            ((st0.say "\nFatal serialization exception!").toks.take n) :=
          (LinkInv_say ⟨h1, h2, h3⟩ _).2.1
        have h3b : 1 ≤ st0.depth := h3
        have hsd : (st0.say "\nFatal serialization exception!").depth =
            st0.depth := rfl
        have hrep_net : netDepth
            ((st0.say "\nFatal serialization exception!").toks ++
              List.replicate (st0.depth - 1) Tok.ded) = 1 := by
          rw [netDepth_append, netDepth_replicate_ded, hs1, hsd]
          omega
        have hrep_low : ∀ n, 0 ≤ netDepth
            (((st0.say "\nFatal serialization exception!").toks ++
              List.replicate (st0.depth - 1) Tok.ded).take n) := by
          apply lowNN_append_replicate _ _ hs2
          rw [hs1, hsd]
          omega
        have hl1 := lowNN_append_single (t := Tok.ded) hrep_low
          (by rw [hrep_net]; norm_num [Tok.delta])
        have hl2 := lowNN_append_single (t := Tok.text "\n;)") hl1
          (by rw [netDepth_append, netDepth_single, hrep_net]
              norm_num [Tok.delta])
        refine ⟨?_, hl2, ?_⟩
        · rw [netDepth_append, netDepth_append, netDepth_single,
            netDepth_single, hrep_net]
          norm_num [Tok.delta]
        · intro _
          have hmem : Tok.text "\nFatal serialization exception!" ∈
              (st0.say "\nFatal serialization exception!").toks := by
            simp [LinkSt.say]
          simp only [List.mem_append]
          exact Or.inl (Or.inl (Or.inl hmem))
  · intro ctx data hne
    cases hr : linkingDecode ctx data with
    | mk st0 res =>
      rw [hr] at hne
      cases res with
      | ok => simp [printLinkingSection, hr]
      | thrown => simp [printLinkingSection, hr]
      | crash => exact absurd rfl hne

/-- Witness for linking_section_scoped_failure at a section whose bytes end
    while the first subsection header is being read. -/
theorem linking_section_scoped_failure_witness :
    Tok.text "\nFatal serialization exception!" ∈
      [Tok.text "\n(; linking section:", Tok.ind, Tok.text "\nVersion: 0",
        Tok.text "\nFatal serialization exception!", Tok.ded,
        Tok.text "\n;)"] :=
  (linking_section_scoped_failure.1 ⟨[], [], [], [], []⟩ [0, 99]
    [Tok.text "\n(; linking section:", Tok.ind, Tok.text "\nVersion: 0",
      Tok.text "\nFatal serialization exception!", Tok.ded,
      Tok.text "\n;)"] (by decide)).2.2 (by decide)

end WAVM
